import Mathlib

/-!
# KLD-sampling: a verification development of `kld-sampling.cc`

Shallow embedding of the class `kld_sampling` (files `kld-sampling.hh`,
`kld-sampling.cc`).

Conventions of the embedding.

* A `float` or `double` value is the rational number it denotes.  Quantile,
  error, bin widths, samples and table entries are arguments and are taken as
  given.  The two places where the code computes with rounding on the way to an
  integer are modelled with IEEE 754 arithmetic (round to nearest, ties to
  even): the quotient `curr_sample[i]/bin_size[i]` of line 130 in binary32, and
  line 91 (`k/(2*max_error)` in binary32, the rest in binary64, `zvalue` read
  as the binary32 value stored by `init`).
* NaN and the infinities are not arguments; they arise as results: a quotient
  by a zero width is an infinity or (for `0/0`) a NaN, an overflow is an
  infinity.  A bin key records them (`KeyVal`), and `==` on keys is the
  comparison of `float`, under which a NaN equals nothing.
* `int` members are `ℤ`.  The conversion `(int)` of line 91 is undefined in
  C++ for a NaN, an infinity or a value outside the range of `int`; the model
  takes the value `-2^31` that the x86-64 conversion instruction delivers.
* Every arithmetic operation is rounded once, to the type the C++ expression
  has (no fused multiply-add, no excess precision); `sqrt` is correctly rounded
  and `pow(x, 3)` is taken correctly rounded.
* The two `exit(-1)` paths of `update` are the two values of `Fatal`.
* The static `ztable`, read from `ztable.data`, is a parameter of `init`.
-/

namespace KLD

/-- The two fatal exits of `update` (`kld-sampling.cc`, lines 74-82). -/
inductive Fatal where
  | must_run_init
  | dimension_mismatch
  deriving DecidableEq, Repr

/-- One coordinate of a bin: the `float` that `floor` returns at line 130, an
integer value, an infinity or a NaN. -/
inductive KeyVal where
  | fin (n : ℤ)
  | pinf
  | ninf
  | nan
  deriving DecidableEq, Repr

/-- The data members of `class kld_sampling` (`kld-sampling.hh`, lines 46-56),
the static `ztable` apart. -/
structure kld_sampling where
  confidence : ℚ
  max_error : ℚ
  bin_size : List ℚ
  num_samples : ℤ
  bins : List (List KeyVal)
  curr_sample : List ℚ
  support_samples : ℤ
  kld_samples : ℤ
  zvalue : ℚ
  deriving DecidableEq

deriving instance DecidableEq for Except

/-- The constant `static const int absolute_min=10`. -/
def absolute_min : ℤ := 10

/-- The loop of `init` (lines 59-64): starting with index `i` at the head of the
remaining table, the first entry `>= confidence` gives `i/100.0`; when the table
is exhausted the preset `zvalue=4.1` stays. -/
def zscan (confidence : ℚ) : List ℚ → ℕ → ℚ
  | [], _ => 41 / 10
  | t :: rest, i => if t ≥ confidence then (i : ℚ) / 100 else zscan confidence rest (i + 1)

/-- The clamp of `init` (lines 53-54):
`confidence=quantile-0.5; confidence=fmin(0.49998,fmax(0,confidence))`. -/
def clamp_confidence (quantile : ℚ) : ℚ :=
  min (49998 / 100000) (max 0 (quantile - 1 / 2))

/-- The method `kld_sampling::init` (lines 44-65).  Every member is overwritten
except `curr_sample`. -/
def init (s : kld_sampling) (ztable : List ℚ) (quantile err : ℚ) (bsz : List ℚ)
    (sample_min : ℤ) : kld_sampling :=
  { s with
    support_samples := 0
    num_samples := 0
    kld_samples := if sample_min < absolute_min then absolute_min else sample_min
    bins := []
    confidence := clamp_confidence quantile
    max_error := err
    bin_size := bsz
    zvalue := zscan (clamp_confidence quantile) ztable 0 }

/-- The power `2^e` as a rational. -/
def pow2 (e : ℤ) : ℚ :=
  if 0 ≤ e then ((2 ^ e.toNat : ℕ) : ℚ) else 1 / ((2 ^ (-e).toNat : ℕ) : ℚ)

/-- Floor of the base-2 logarithm of a natural number `n ≥ 1`, by halving;
the first argument bounds the number of steps. -/
def log2_fuel : ℕ → ℕ → ℕ
  | 0, _ => 0
  | f + 1, n => if n < 2 then 0 else log2_fuel f (n / 2) + 1

/-- Floor of the base-2 logarithm of a natural number `n ≥ 1`. -/
def log2 (n : ℕ) : ℕ := log2_fuel n n

/-- Floor of the base-2 logarithm of `|q|`, for `q ≠ 0`: the difference of the
logarithms of numerator and denominator, or one less. -/
def ilog2 (q : ℚ) : ℤ :=
  if pow2 ((log2 q.num.natAbs : ℤ) - (log2 q.den : ℤ)) ≤ |q| then
    (log2 q.num.natAbs : ℤ) - (log2 q.den : ℤ)
  else (log2 q.num.natAbs : ℤ) - (log2 q.den : ℤ) - 1

/-- Rounding to the nearest integer, ties to the even one. -/
def round_half_even (m : ℚ) : ℤ :=
  if m - (Int.floor m : ℚ) < 1 / 2 then Int.floor m
  else if 1 / 2 < m - (Int.floor m : ℚ) then Int.floor m + 1
  else if Int.floor m % 2 = 0 then Int.floor m else Int.floor m + 1

/-- IEEE 754 rounding to nearest, ties to even, of a rational to the binary
format with `p` significand bits and least normal exponent `emin`, the
exponent not bounded above. -/
def rnd (p : ℕ) (emin : ℤ) (q : ℚ) : ℚ :=
  if q = 0 then 0
  else (round_half_even (q / pow2 (max (ilog2 q) emin - ((p : ℤ) - 1))) : ℚ)
    * pow2 (max (ilog2 q) emin - ((p : ℤ) - 1))

/-- The result of a correctly rounded floating-point operation whose exact
value is `q`: the rounded value, or `none` when it overflows to an infinity. -/
def to_float (p : ℕ) (emin emax : ℤ) (q : ℚ) : Option ℚ :=
  if |rnd p emin q| < pow2 (emax + 1) then some (rnd p emin q) else none

/-- Rounding to `float` (binary32). -/
def f32 (q : ℚ) : Option ℚ := to_float 24 (-126) 127 q

/-- Rounding to `double` (binary64). -/
def f64 (q : ℚ) : Option ℚ := to_float 53 (-1022) 1023 q

/-- Integer square root by bisection on the bits `b - 1, ..., 0`. -/
def isqrt_bits (n : ℕ) : ℕ → ℕ → ℕ
  | 0, r => r
  | b + 1, r =>
    if (r + 2 ^ b) * (r + 2 ^ b) ≤ n then isqrt_bits n b (r + 2 ^ b) else isqrt_bits n b r

/-- Floor of the square root of a natural number. -/
def isqrt (n : ℕ) : ℕ := isqrt_bits n (log2 n / 2 + 1) 0

/-- The exponent of the unit in the last place of the square root of a
positive `double` value `c`: with `s = floor(ilog2 c / 2) - 52` the square
root lies in `[2^52, 2^53) * 2^s`. -/
def sqrt_scale (c : ℚ) : ℤ := Int.fdiv (ilog2 c) 2 - 52

/-- The integer part of `sqrt(c) / 2^s`, `s = sqrt_scale c`. -/
def sqrt_mant (c : ℚ) : ℕ := isqrt (Int.floor (c / pow2 (2 * sqrt_scale c))).toNat

/-- The correctly rounded `sqrt` of a positive `double` value `c` (binary64,
nearest; a tie cannot occur): with `s = sqrt_scale c` and `n = sqrt_mant c` the
result is `n * 2^s` when `sqrt(c) / 2^s < n + 1/2`, that is when
`4 * c / 4^s < (2n + 1)^2`, and `(n + 1) * 2^s` otherwise. -/
def sqrt64 (c : ℚ) : ℚ :=
  if 4 * (c / pow2 (2 * sqrt_scale c))
      < ((2 * sqrt_mant c + 1 : ℕ) : ℚ) * ((2 * sqrt_mant c + 1 : ℕ) : ℚ) then
    (sqrt_mant c : ℚ) * pow2 (sqrt_scale c)
  else ((sqrt_mant c + 1 : ℕ) : ℚ) * pow2 (sqrt_scale c)

/-- One coordinate of line 130, `floor(curr_sample[i]/bin_size[i])`: the
quotient of two `float` values is a `float`; by a zero width it is an infinity
with the sign of the sample, or a NaN for `0/0`; otherwise it is the exact
quotient rounded to binary32, an infinity when that overflows; `floor` keeps
infinities and NaN. -/
def bin_coord (x w : ℚ) : KeyVal :=
  if w = 0 then
    if 0 < x then KeyVal.pinf else if x < 0 then KeyVal.ninf else KeyVal.nan
  else
    match f32 (x / w) with
    | some r => KeyVal.fin (Int.floor r)
    | none => if 0 < x / w then KeyVal.pinf else KeyVal.ninf

/-- The first loop of `in_empty_bin` (lines 129-130):
`curr_bin.push_back(floor(curr_sample[i]/bin_size[i]))`. -/
def curr_bin (curr_sample bin_size : List ℚ) : List KeyVal :=
  List.zipWith bin_coord curr_sample bin_size

/-- The comparison `==` of two `float` values held in bins: a NaN is equal to
nothing, itself included. -/
def eqf : KeyVal → KeyVal → Bool
  | KeyVal.nan, _ => false
  | _, KeyVal.nan => false
  | a, b => decide (a = b)

/-- The comparison `curr_bin==bins[i]` of line 133 (`operator==` of
`vector<float>`): equal sizes and `==` in every coordinate. -/
def key_eq : List KeyVal → List KeyVal → Bool
  | [], [] => true
  | a :: l, b :: m => eqf a b && key_eq l m
  | _, _ => false

/-- The search loop of `in_empty_bin` (lines 132-135): whether some stored bin
compares equal to `cb`. -/
def seen (cb : List KeyVal) (bins : List (List KeyVal)) : Bool :=
  bins.any (fun b => key_eq cb b)

/-- The method `kld_sampling::in_empty_bin` (lines 125-138): `false` when the
bin of `curr_sample` compares equal to one of `bins`, otherwise the bin is
pushed and the result is `true`. -/
def in_empty_bin (s : kld_sampling) : Bool × kld_sampling :=
  if seen (curr_bin s.curr_sample s.bin_size) s.bins then (false, s)
  else (true, { s with bins := s.bins ++ [curr_bin s.curr_sample s.bin_size] })

/-- The value of line 91,
`ceil(k/(2*max_error)*pow(1-2/(9.0*k)+sqrt(2/(9.0*k))*zvalue,3))`, as the
machine evaluates it, when it is finite and within the range of `int`;
`none` otherwise.  The operations in source order: `2*max_error` and the
quotient `k/(2*max_error)` in binary32 (a quotient by an infinity is 0, a
quotient by 0 an infinity); `9.0*k`, `2/(9.0*k)`, `1-...`, `sqrt`, the product
with `zvalue` (the binary32 value stored by `init` from a `double`), the sum,
`pow(.,3)` and the final product in binary64. -/
def kld_value (k : ℤ) (max_error zvalue : ℚ) : Option ℤ :=
  if k ≤ 0 then none
  else
    (match f32 (2 * max_error) with
      | none => some 0
      | some d => if d = 0 then none else (f32 (k : ℚ)).bind (fun kf => f32 (kf / d))).bind
    (fun a =>
      (f64 (9 * (k : ℚ))).bind (fun nk =>
      (f64 (2 / nk)).bind (fun c =>
      (f64 (1 - c)).bind (fun b =>
      ((f64 zvalue).bind f32).bind (fun zf =>
      (f64 (sqrt64 c * zf)).bind (fun t =>
      (f64 (b + t)).bind (fun x =>
      (f64 (x * x * x)).bind (fun pw =>
      (f64 (a * pw)).bind (fun v =>
        if -2147483648 ≤ Int.ceil v ∧ Int.ceil v ≤ 2147483647 then some (Int.ceil v)
        else none)))))))))

/-- Line 91 of `update`: the `int` assigned to `k`. -/
def kld_candidate (k : ℤ) (max_error zvalue : ℚ) : ℤ :=
  (kld_value k max_error zvalue).getD (-2147483648)

/-- Least natural number whose square is at least `m`. -/
def ceil_sqrt (m : ℕ) : ℕ :=
  if Nat.sqrt m * Nat.sqrt m = m then Nat.sqrt m else Nat.sqrt m + 1

/-- Exact value of `ceil(p + sqrt(r))` for rationals `p` and `r ≥ 0`, computed
over the common denominator `p.den * r.den`. -/
def ceil_add_sqrt (p r : ℚ) : ℤ :=
  Int.ceil ((((p.num * r.den + ceil_sqrt (p.den ^ 2 * r.num.toNat * r.den) : ℤ)) : ℚ)
    / ((p.den * r.den : ℕ) : ℚ))

/-- Exact value of `ceil(p - sqrt(r))` for rationals `p` and `r ≥ 0`. -/
def ceil_sub_sqrt (p r : ℚ) : ℤ :=
  Int.ceil ((((p.num * r.den - Nat.sqrt (p.den ^ 2 * r.num.toNat * r.den) : ℤ)) : ℚ)
    / ((p.den * r.den : ℕ) : ℚ))

/-- The expression of line 91 read over the real numbers, as the specification
states it, computed exactly.  With `c = 2/(9k)`, `b = 1 - c` and
`a = k/(2*max_error)` the cube expands to
`a*(b^3 + 3*b*c*z^2) + a*(3*b^2*z + c*z^3) * sqrt c`, a number `p + q * sqrt c`
whose ceiling is computed by `ceil_add_sqrt` or `ceil_sub_sqrt` according to
the sign of `q`.  The theorem `kld_formula_exact_eq` shows that this is the
ceiling of the expression over the reals. -/
def kld_formula_exact (k : ℤ) (max_error zvalue : ℚ) : ℤ :=
  let c : ℚ := 2 / (9 * k)
  let b : ℚ := 1 - c
  let a : ℚ := k / (2 * max_error)
  let p : ℚ := a * (b ^ 3 + 3 * b * c * zvalue ^ 2)
  let q : ℚ := a * (3 * b ^ 2 * zvalue + c * zvalue ^ 3)
  if 0 ≤ q then ceil_add_sqrt p (q ^ 2 * c) else ceil_sub_sqrt p (q ^ 2 * c)

/-- The expression of line 91 as the specification writes it, over the real
numbers. -/
noncomputable def kld_formula (k : ℤ) (max_error zvalue : ℝ) : ℤ :=
  Int.ceil ((k : ℝ) / (2 * max_error)
    * (1 - 2 / (9 * (k : ℝ)) + Real.sqrt (2 / (9 * (k : ℝ))) * zvalue) ^ 3)

/-- The method `kld_sampling::update` (lines 73-97).  The result is the returned
count together with the object after the call, or the fatal exit taken. -/
def update (s : kld_sampling) (sample : List ℚ) : Except Fatal (ℤ × kld_sampling) :=
  if s.bin_size.isEmpty then .error Fatal.must_run_init
  else if sample.length ≠ s.bin_size.length then .error Fatal.dimension_mismatch
  else
    let s1 : kld_sampling := { s with curr_sample := sample, num_samples := s.num_samples + 1 }
    let r := in_empty_bin s1
    if r.1 then
      let s2 : kld_sampling := { r.2 with support_samples := r.2.support_samples + 1 }
      if s2.support_samples ≥ 2 then
        let k : ℤ := kld_candidate (s2.support_samples - 1) s2.max_error s2.zvalue
        if k > s2.kld_samples then .ok (k, { s2 with kld_samples := k })
        else .ok (s2.kld_samples, s2)
      else .ok (s2.kld_samples, s2)
    else .ok (r.2.kld_samples, r.2)

/-- The caller's loop (`test.cc`, lines 235-246, without the stopping test):
the samples are passed to `update` one after the other; the result lists the
returned counts in order and gives the final object, or the first fatal exit. -/
def feed (s : kld_sampling) : List (List ℚ) → Except Fatal (List ℤ × kld_sampling)
  | [] => .ok ([], s)
  | x :: xs =>
    match update s x with
    | .error e => .error e
    | .ok (r, s1) =>
      match feed s1 xs with
      | .error e => .error e
      | .ok (rs, s2) => .ok (r :: rs, s2)

/-- An object as the constructor leaves it, with the indeterminate `int` and
`float` members given as arguments and the vectors empty. -/
def fresh (f1 f2 f3 : ℚ) (i1 i2 i3 : ℤ) : kld_sampling :=
  { confidence := f1, max_error := f2, bin_size := [], num_samples := i1, bins := [],
    curr_sample := [], support_samples := i2, kld_samples := i3, zvalue := f3 }

/-- The count stored by `update` when the sample opens a new bin: the candidate
of line 91 when the new support size is at least 2 and the candidate is larger
than the stored count, the stored count otherwise. -/
def ratchet (s : kld_sampling) : ℤ :=
  if 2 ≤ s.support_samples + 1 ∧
      s.kld_samples < kld_candidate (s.support_samples + 1 - 1) s.max_error s.zvalue then
    kld_candidate (s.support_samples + 1 - 1) s.max_error s.zvalue
  else s.kld_samples

/-- State after three samples in three distinct bins in a round started by
`init(0.5, 0.1, [0.1], 10)` on the one-entry table `[0]`. -/
def three_bins : kld_sampling :=
  { confidence := 0, max_error := 1 / 10, bin_size := [1 / 10], num_samples := 3,
    bins := [[KeyVal.fin 0], [KeyVal.fin 1], [KeyVal.fin 2]], curr_sample := [25 / 100],
    support_samples := 3, kld_samples := 10, zvalue := 0 }

/-- State after the first sample of that round. -/
def one_bin : kld_sampling :=
  { confidence := 0, max_error := 1 / 10, bin_size := [1 / 10], num_samples := 1,
    bins := [[KeyVal.fin 0]], curr_sample := [5 / 100], support_samples := 1,
    kld_samples := 10, zvalue := 0 }

/-- State after the second sample of that round. -/
def two_bins : kld_sampling :=
  { confidence := 0, max_error := 1 / 10, bin_size := [1 / 10], num_samples := 2,
    bins := [[KeyVal.fin 0], [KeyVal.fin 1]], curr_sample := [15 / 100],
    support_samples := 2, kld_samples := 10, zvalue := 0 }

/-- State after the fourth sample of that round, in a fourth bin. -/
def four_bins : kld_sampling :=
  { confidence := 0, max_error := 1 / 10, bin_size := [1 / 10], num_samples := 4,
    bins := [[KeyVal.fin 0], [KeyVal.fin 1], [KeyVal.fin 2], [KeyVal.fin 3]],
    curr_sample := [35 / 100], support_samples := 4, kld_samples := 12, zvalue := 0 }

/-- Whether a bin holds a NaN in some coordinate. -/
def has_nan (b : List KeyVal) : Bool := decide (KeyVal.nan ∈ b)

/-- The number of bins that `in_empty_bin` pushes for a sequence of bins met
in a round: a bin that holds a NaN compares equal to nothing and is pushed at
every occurrence; any other bin is pushed once, at its first occurrence. -/
def support_count (keys : List (List KeyVal)) : ℕ :=
  (keys.filter (fun b => has_nan b)).length
    + (keys.filter (fun b => !has_nan b)).dedup.length

/-- The count the ratchet of `update` has stored once the support size is `n`,
starting from the count `base` at support size 0: no candidate is computed at
support size 1, and the step to support size `n + 1 >= 2` takes the maximum
with the candidate of line 91 at `k = n`. -/
def ratchet_closed (base : ℤ) (max_error zvalue : ℚ) : ℕ → ℤ
  | 0 => base
  | n + 1 =>
    if 2 ≤ n + 1 then
      max (ratchet_closed base max_error zvalue n) (kld_candidate (n : ℤ) max_error zvalue)
    else ratchet_closed base max_error zvalue n

/-- Invariant of a round with the parameters `base`, `max_error`, `zvalue`: the
stored count is the value of `ratchet_closed` at the support size. -/
def round_inv (base : ℤ) (max_error zvalue : ℚ) (s : kld_sampling) : Prop :=
  s.max_error = max_error ∧ s.zvalue = zvalue ∧ 0 ≤ s.support_samples ∧
  s.kld_samples = ratchet_closed base max_error zvalue s.support_samples.toNat

/-- Two objects of rounds that differ in the z-value only: the same
`max_error > 0`, bin widths, support set and counters, with the z-value and the
stored count of the first at most those of the second. -/
def z_dominated (s1 s2 : kld_sampling) : Prop :=
  0 < s1.max_error ∧ s1.max_error = s2.max_error ∧ s1.bin_size = s2.bin_size ∧
  s1.bins = s2.bins ∧ s1.support_samples = s2.support_samples ∧
  s1.num_samples = s2.num_samples ∧ s1.zvalue ≤ s2.zvalue ∧ s1.kld_samples ≤ s2.kld_samples

/-! ## Line 91 over the reals -/

theorem ceil_sqrt_le_iff (m t : ℕ) : ceil_sqrt m ≤ t ↔ m ≤ t * t := by
  unfold ceil_sqrt
  have h1 : Nat.sqrt m * Nat.sqrt m ≤ m := Nat.sqrt_le m
  have h2 : m < (Nat.sqrt m + 1) * (Nat.sqrt m + 1) := Nat.lt_succ_sqrt m
  split_ifs with h
  · constructor
    · intro ht
      calc m = Nat.sqrt m * Nat.sqrt m := h.symm
        _ ≤ t * t := Nat.mul_le_mul ht ht
    · intro hm
      by_contra hlt
      push_neg at hlt
      have : t * t < Nat.sqrt m * Nat.sqrt m := Nat.mul_lt_mul'' hlt hlt
      omega
  · constructor
    · intro ht
      have : (Nat.sqrt m + 1) * (Nat.sqrt m + 1) ≤ t * t := Nat.mul_le_mul ht ht
      omega
    · intro hm
      by_contra hlt
      push_neg at hlt
      have h3 : t ≤ Nat.sqrt m := by omega
      have : t * t ≤ Nat.sqrt m * Nat.sqrt m := Nat.mul_le_mul h3 h3
      omega

theorem ceil_sqrt_le_int_iff (m : ℕ) (t : ℤ) :
    ((ceil_sqrt m : ℕ) : ℤ) ≤ t ↔ Real.sqrt (m : ℝ) ≤ (t : ℝ) := by
  rcases lt_or_le t 0 with ht | ht
  · constructor
    · intro h
      have : (0 : ℤ) ≤ (ceil_sqrt m : ℕ) := Int.natCast_nonneg _
      omega
    · intro h
      have h0 : (0 : ℝ) ≤ Real.sqrt (m : ℝ) := Real.sqrt_nonneg _
      have h1 : (t : ℝ) < 0 := by exact_mod_cast ht
      linarith
  · obtain ⟨u, rfl⟩ := Int.eq_ofNat_of_zero_le ht
    rw [Int.ofNat_le, ceil_sqrt_le_iff, Real.sqrt_le_left (by positivity)]
    constructor
    · intro h
      have : ((m : ℕ) : ℝ) ≤ ((u * u : ℕ) : ℝ) := by exact_mod_cast h
      push_cast at this ⊢
      nlinarith
    · intro h
      have : ((m : ℕ) : ℝ) ≤ ((u * u : ℕ) : ℝ) := by push_cast at h ⊢; nlinarith
      exact_mod_cast this

theorem neg_sqrt_le_int_iff (m : ℕ) (t : ℤ) :
    -((Nat.sqrt m : ℕ) : ℤ) ≤ t ↔ -Real.sqrt (m : ℝ) ≤ (t : ℝ) := by
  rcases le_or_lt 0 t with ht | ht
  · constructor
    · intro _
      have h0 : (0 : ℝ) ≤ Real.sqrt (m : ℝ) := Real.sqrt_nonneg _
      have h1 : (0 : ℝ) ≤ (t : ℝ) := by exact_mod_cast ht
      linarith
    · intro _
      have : (0 : ℤ) ≤ (Nat.sqrt m : ℕ) := Int.natCast_nonneg _
      omega
  · obtain ⟨u, hu⟩ : ∃ u : ℕ, t = -(u : ℤ) := ⟨(-t).toNat, by omega⟩
    subst hu
    rw [neg_le_neg_iff, Int.ofNat_le, Nat.le_sqrt]
    push_cast
    rw [neg_le_neg_iff, Real.le_sqrt (by positivity) (by positivity)]
    constructor
    · intro h
      have : ((u * u : ℕ) : ℝ) ≤ ((m : ℕ) : ℝ) := by exact_mod_cast h
      push_cast at this
      nlinarith
    · intro h
      have : ((u * u : ℕ) : ℝ) ≤ ((m : ℕ) : ℝ) := by push_cast; nlinarith
      exact_mod_cast this

theorem sqrt_common_den (p r : ℚ) (hr : 0 ≤ r) :
    Real.sqrt (((p.den ^ 2 * r.num.toNat * r.den : ℕ)) : ℝ)
      = (p.den : ℝ) * (r.den : ℝ) * Real.sqrt (r : ℝ) := by
  have hpd : (0 : ℝ) < p.den := by exact_mod_cast p.den_pos
  have hrd : (0 : ℝ) < r.den := by exact_mod_cast r.den_pos
  have hrn : 0 ≤ r.num := Rat.num_nonneg.mpr hr
  have hcast : ((r.num.toNat : ℕ) : ℝ) = (r.num : ℝ) := by
    have h := Int.toNat_of_nonneg hrn
    exact_mod_cast congrArg (Int.cast : ℤ → ℝ) h
  have hM : (((p.den ^ 2 * r.num.toNat * r.den : ℕ)) : ℝ)
      = ((p.den : ℝ) * (r.den : ℝ)) ^ 2 * (r : ℝ) := by
    rw [Rat.cast_def r]
    push_cast
    rw [hcast]
    field_simp
    ring
  rw [hM, Real.sqrt_mul (sq_nonneg _), Real.sqrt_sq (by positivity)]

theorem ceil_add_sqrt_eq (p r : ℚ) (hr : 0 ≤ r) :
    ceil_add_sqrt p r = Int.ceil ((p : ℝ) + Real.sqrt (r : ℝ)) := by
  apply eq_of_forall_ge_iff
  intro n
  have hpd : (0 : ℝ) < p.den := by exact_mod_cast p.den_pos
  have hrd : (0 : ℝ) < r.den := by exact_mod_cast r.den_pos
  have hD : (0 : ℚ) < ((p.den * r.den : ℕ) : ℚ) := by
    exact_mod_cast Nat.mul_pos p.den_pos r.den_pos
  have hp : (p : ℝ) * (p.den : ℝ) = (p.num : ℝ) := by
    rw [Rat.cast_def p]; field_simp
  unfold ceil_add_sqrt
  rw [Int.ceil_le, Int.ceil_le, div_le_iff₀ hD]
  have h1 : ((((p.num * r.den + ceil_sqrt (p.den ^ 2 * r.num.toNat * r.den) : ℤ)) : ℚ)
      ≤ (n : ℚ) * ((p.den * r.den : ℕ) : ℚ))
      ↔ ((ceil_sqrt (p.den ^ 2 * r.num.toNat * r.den) : ℕ) : ℤ)
          ≤ n * (p.den * r.den) - p.num * r.den := by
    constructor
    · intro h
      have h2 : p.num * r.den + (ceil_sqrt (p.den ^ 2 * r.num.toNat * r.den) : ℤ)
          ≤ n * ((p.den * r.den : ℕ) : ℤ) := by exact_mod_cast h
      push_cast at h2
      linarith
    · intro h
      have h2 : p.num * r.den + (ceil_sqrt (p.den ^ 2 * r.num.toNat * r.den) : ℤ)
          ≤ n * ((p.den * r.den : ℕ) : ℤ) := by push_cast; linarith
      exact_mod_cast h2
  rw [h1, ceil_sqrt_le_int_iff, sqrt_common_den p r hr]
  push_cast
  constructor
  · intro h
    have h3 : (p.den : ℝ) * r.den * ((p : ℝ) + Real.sqrt r) ≤ (p.den : ℝ) * r.den * n := by
      have : (p.den : ℝ) * r.den * (p : ℝ) = p.num * r.den := by rw [← hp]; ring
      nlinarith
    exact le_of_mul_le_mul_left h3 (by positivity)
  · intro h
    have h3 : (p.den : ℝ) * r.den * ((p : ℝ) + Real.sqrt r) ≤ (p.den : ℝ) * r.den * n :=
      mul_le_mul_of_nonneg_left h (by positivity)
    have : (p.den : ℝ) * r.den * (p : ℝ) = p.num * r.den := by rw [← hp]; ring
    nlinarith

theorem ceil_sub_sqrt_eq (p r : ℚ) (hr : 0 ≤ r) :
    ceil_sub_sqrt p r = Int.ceil ((p : ℝ) - Real.sqrt (r : ℝ)) := by
  apply eq_of_forall_ge_iff
  intro n
  have hpd : (0 : ℝ) < p.den := by exact_mod_cast p.den_pos
  have hrd : (0 : ℝ) < r.den := by exact_mod_cast r.den_pos
  have hD : (0 : ℚ) < ((p.den * r.den : ℕ) : ℚ) := by
    exact_mod_cast Nat.mul_pos p.den_pos r.den_pos
  have hp : (p : ℝ) * (p.den : ℝ) = (p.num : ℝ) := by
    rw [Rat.cast_def p]; field_simp
  unfold ceil_sub_sqrt
  rw [Int.ceil_le, Int.ceil_le, div_le_iff₀ hD]
  have h1 : ((((p.num * r.den - Nat.sqrt (p.den ^ 2 * r.num.toNat * r.den) : ℤ)) : ℚ)
      ≤ (n : ℚ) * ((p.den * r.den : ℕ) : ℚ))
      ↔ -((Nat.sqrt (p.den ^ 2 * r.num.toNat * r.den) : ℕ) : ℤ)
          ≤ n * (p.den * r.den) - p.num * r.den := by
    constructor
    · intro h
      have h2 : p.num * r.den - (Nat.sqrt (p.den ^ 2 * r.num.toNat * r.den) : ℤ)
          ≤ n * ((p.den * r.den : ℕ) : ℤ) := by exact_mod_cast h
      push_cast at h2
      linarith
    · intro h
      have h2 : p.num * r.den - (Nat.sqrt (p.den ^ 2 * r.num.toNat * r.den) : ℤ)
          ≤ n * ((p.den * r.den : ℕ) : ℤ) := by push_cast; linarith
      exact_mod_cast h2
  rw [h1, neg_sqrt_le_int_iff, sqrt_common_den p r hr]
  push_cast
  constructor
  · intro h
    have h3 : (p.den : ℝ) * r.den * ((p : ℝ) - Real.sqrt r) ≤ (p.den : ℝ) * r.den * n := by
      have : (p.den : ℝ) * r.den * (p : ℝ) = p.num * r.den := by rw [← hp]; ring
      nlinarith
    exact le_of_mul_le_mul_left h3 (by positivity)
  · intro h
    have h3 : (p.den : ℝ) * r.den * ((p : ℝ) - Real.sqrt r) ≤ (p.den : ℝ) * r.den * n :=
      mul_le_mul_of_nonneg_left h (by positivity)
    have : (p.den : ℝ) * r.den * (p : ℝ) = p.num * r.den := by rw [← hp]; ring
    nlinarith

theorem kld_formula_exact_eq (k : ℤ) (hk : 1 ≤ k) (max_error zvalue : ℚ) :
    kld_formula_exact k max_error zvalue = kld_formula k (max_error : ℝ) (zvalue : ℝ) := by
  have hkq : (0 : ℚ) < (k : ℚ) := by exact_mod_cast (by omega : (0 : ℤ) < k)
  have hkr : (0 : ℝ) < (k : ℝ) := by exact_mod_cast (by omega : (0 : ℤ) < k)
  have hc : (0 : ℚ) ≤ 2 / (9 * (k : ℚ)) := by positivity
  have hcr : (0 : ℝ) ≤ 2 / (9 * (k : ℝ)) := by positivity
  have hsq : Real.sqrt (2 / (9 * (k : ℝ))) ^ 2 = 2 / (9 * (k : ℝ)) := Real.sq_sqrt hcr
  have hexp : (k : ℝ) / (2 * (max_error : ℝ))
        * (1 - 2 / (9 * (k : ℝ)) + Real.sqrt (2 / (9 * (k : ℝ))) * (zvalue : ℝ)) ^ 3
      = (k : ℝ) / (2 * (max_error : ℝ))
          * ((1 - 2 / (9 * (k : ℝ))) ^ 3
              + 3 * (1 - 2 / (9 * (k : ℝ))) * (2 / (9 * (k : ℝ))) * (zvalue : ℝ) ^ 2)
        + (k : ℝ) / (2 * (max_error : ℝ))
          * (3 * (1 - 2 / (9 * (k : ℝ))) ^ 2 * (zvalue : ℝ)
              + 2 / (9 * (k : ℝ)) * (zvalue : ℝ) ^ 3)
          * Real.sqrt (2 / (9 * (k : ℝ))) := by
    have h3 : Real.sqrt (2 / (9 * (k : ℝ))) ^ 3
        = 2 / (9 * (k : ℝ)) * Real.sqrt (2 / (9 * (k : ℝ))) := by
      rw [pow_succ, hsq]
    generalize Real.sqrt (2 / (9 * (k : ℝ))) = s at hsq h3 ⊢
    have : (1 - 2 / (9 * (k : ℝ)) + s * (zvalue : ℝ)) ^ 3
        = (1 - 2 / (9 * (k : ℝ))) ^ 3 + 3 * (1 - 2 / (9 * (k : ℝ))) ^ 2 * (s * zvalue)
          + 3 * (1 - 2 / (9 * (k : ℝ))) * (s ^ 2 * (zvalue : ℝ) ^ 2)
          + s ^ 3 * (zvalue : ℝ) ^ 3 := by ring
    rw [this, hsq, h3]
    ring
  unfold kld_formula_exact kld_formula
  simp only []
  rw [hexp]
  split_ifs with hq
  · rw [ceil_add_sqrt_eq _ _ (mul_nonneg (sq_nonneg _) hc)]
    have hqr : (0 : ℝ) ≤ (((k : ℚ) / (2 * max_error)
        * (3 * (1 - 2 / (9 * (k : ℚ))) ^ 2 * zvalue + 2 / (9 * (k : ℚ)) * zvalue ^ 3) : ℚ) : ℝ) := by
      exact_mod_cast hq
    rw [Rat.cast_mul _ (2 / (9 * (k : ℚ))), Rat.cast_pow, Real.sqrt_mul (sq_nonneg _),
      Real.sqrt_sq hqr]
    push_cast
    rfl
  · rw [ceil_sub_sqrt_eq _ _ (mul_nonneg (sq_nonneg _) hc)]
    push_neg at hq
    have hqr : (((k : ℚ) / (2 * max_error)
        * (3 * (1 - 2 / (9 * (k : ℚ))) ^ 2 * zvalue + 2 / (9 * (k : ℚ)) * zvalue ^ 3) : ℚ) : ℝ) < 0 := by
      exact_mod_cast hq
    rw [Rat.cast_mul _ (2 / (9 * (k : ℚ))), Rat.cast_pow, Real.sqrt_mul (sq_nonneg _),
      Real.sqrt_sq_eq_abs, abs_of_neg hqr]
    push_cast
    congr 1
    ring

/-! ## Exponents -/

theorem pow2_eq (e : ℤ) : pow2 e = (2 : ℚ) ^ e := by
  unfold pow2
  split_ifs with h
  · obtain ⟨n, rfl⟩ := Int.eq_ofNat_of_zero_le h
    simp
  · have hneg : 0 ≤ -e := by omega
    obtain ⟨n, hn⟩ := Int.eq_ofNat_of_zero_le hneg
    have he : e = -(n : ℤ) := by omega
    subst he
    simp

theorem pow2_pos (e : ℤ) : 0 < pow2 e := by
  rw [pow2_eq]
  positivity

theorem pow2_le_iff (a b : ℤ) : pow2 a ≤ pow2 b ↔ a ≤ b := by
  rw [pow2_eq, pow2_eq]
  exact zpow_le_zpow_iff_right₀ (by norm_num)

theorem pow2_lt_iff (a b : ℤ) : pow2 a < pow2 b ↔ a < b := by
  rw [pow2_eq, pow2_eq]
  exact zpow_lt_zpow_iff_right₀ (by norm_num)

theorem pow2_add (a b : ℤ) : pow2 (a + b) = pow2 a * pow2 b := by
  rw [pow2_eq, pow2_eq, pow2_eq]
  exact zpow_add₀ (by norm_num) a b

theorem pow2_natCast (n : ℕ) : pow2 (n : ℤ) = (((2 : ℤ) ^ n : ℤ) : ℚ) := by
  rw [pow2_eq]
  simp

theorem log2_fuel_spec : ∀ (f n : ℕ), n ≤ f → 1 ≤ n →
    2 ^ log2_fuel f n ≤ n ∧ n < 2 ^ (log2_fuel f n + 1)
  | 0, n, h1, h2 => by omega
  | f + 1, n, h1, h2 => by
    unfold log2_fuel
    split_ifs with h
    · have : n = 1 := by omega
      subst this
      simp
    · have hdiv : n / 2 ≤ f := by omega
      have hpos : 1 ≤ n / 2 := by omega
      obtain ⟨ih1, ih2⟩ := log2_fuel_spec f (n / 2) hdiv hpos
      constructor
      · rw [pow_succ]
        omega
      · rw [pow_succ]
        omega

theorem log2_spec (n : ℕ) (h : 1 ≤ n) : 2 ^ log2 n ≤ n ∧ n < 2 ^ (log2 n + 1) :=
  log2_fuel_spec n n (le_refl n) h

theorem abs_eq_natAbs_div (q : ℚ) : |q| = (q.num.natAbs : ℚ) / (q.den : ℚ) := by
  have hden : (0 : ℚ) < (q.den : ℚ) := by exact_mod_cast q.den_pos
  conv_lhs => rw [← Rat.num_div_den q]
  rw [abs_div, abs_of_pos hden]
  rw [Nat.cast_natAbs, Int.cast_abs]

/-- The exponent found by `ilog2` brackets `|q|`. -/
theorem ilog2_spec (q : ℚ) (hq : q ≠ 0) :
    pow2 (ilog2 q) ≤ |q| ∧ |q| < pow2 (ilog2 q + 1) := by
  have hnum : 1 ≤ q.num.natAbs := by
    have : q.num ≠ 0 := Rat.num_ne_zero.mpr hq
    omega
  have hden : 1 ≤ q.den := q.den_pos
  obtain ⟨ha1, ha2⟩ := log2_spec q.num.natAbs hnum
  obtain ⟨hb1, hb2⟩ := log2_spec q.den hden
  have hD : (0 : ℚ) < (q.den : ℚ) := by exact_mod_cast q.den_pos
  have ha1q : (2 : ℚ) ^ (log2 q.num.natAbs) ≤ (q.num.natAbs : ℚ) := by exact_mod_cast ha1
  have ha2q : (q.num.natAbs : ℚ) < (2 : ℚ) ^ (log2 q.num.natAbs + 1) := by exact_mod_cast ha2
  have hb1q : (2 : ℚ) ^ (log2 q.den) ≤ (q.den : ℚ) := by exact_mod_cast hb1
  have hb2q : (q.den : ℚ) < (2 : ℚ) ^ (log2 q.den + 1) := by exact_mod_cast hb2
  have hpa : (0 : ℚ) < (2 : ℚ) ^ (log2 q.num.natAbs) := by positivity
  have hpb : (0 : ℚ) < (2 : ℚ) ^ (log2 q.den) := by positivity
  have habs := abs_eq_natAbs_div q
  have hsub : ∀ d : ℤ, pow2 ((log2 q.num.natAbs : ℤ) - (log2 q.den : ℤ) + d)
      = (2 : ℚ) ^ (log2 q.num.natAbs) / (2 : ℚ) ^ (log2 q.den) * (2 : ℚ) ^ d := by
    intro d
    rw [pow2_eq, zpow_add₀ (by norm_num), zpow_sub₀ (by norm_num)]
    simp
  unfold ilog2
  split_ifs with h
  · refine ⟨h, ?_⟩
    rw [hsub 1, habs, div_mul_eq_mul_div, div_lt_div_iff₀ hD hpb]
    have : (2 : ℚ) ^ (1 : ℤ) = 2 := by norm_num
    rw [this]
    have h2 : (q.num.natAbs : ℚ) * (2 : ℚ) ^ (log2 q.den)
        < (2 : ℚ) ^ (log2 q.num.natAbs + 1) * (q.den : ℚ) := by
      calc (q.num.natAbs : ℚ) * (2 : ℚ) ^ (log2 q.den)
          ≤ (q.num.natAbs : ℚ) * (q.den : ℚ) := by
            apply mul_le_mul_of_nonneg_left hb1q
            positivity
        _ < (2 : ℚ) ^ (log2 q.num.natAbs + 1) * (q.den : ℚ) := by
            apply mul_lt_mul_of_pos_right ha2q hD
    rw [pow_succ] at h2
    linarith
  · have h' := not_le.mp h
    constructor
    · have e1 : (log2 q.num.natAbs : ℤ) - (log2 q.den : ℤ) - 1
          = (log2 q.num.natAbs : ℤ) - (log2 q.den : ℤ) + (-1) := by ring
      rw [e1, hsub (-1), habs]
      have : (2 : ℚ) ^ (-1 : ℤ) = 1 / 2 := by norm_num
      rw [this, div_mul_eq_mul_div, div_le_div_iff₀ hpb hD]
      have h2 : (2 : ℚ) ^ (log2 q.num.natAbs) * (q.den : ℚ)
          ≤ (q.num.natAbs : ℚ) * (2 : ℚ) ^ (log2 q.den + 1) := by
        calc (2 : ℚ) ^ (log2 q.num.natAbs) * (q.den : ℚ)
            ≤ (q.num.natAbs : ℚ) * (q.den : ℚ) := by
              apply mul_le_mul_of_nonneg_right ha1q hD.le
          _ ≤ (q.num.natAbs : ℚ) * (2 : ℚ) ^ (log2 q.den + 1) := by
              apply mul_le_mul_of_nonneg_left hb2q.le
              positivity
      rw [pow_succ] at h2
      linarith
    · have e1 : (log2 q.num.natAbs : ℤ) - (log2 q.den : ℤ) - 1 + 1
          = (log2 q.num.natAbs : ℤ) - (log2 q.den : ℤ) := by ring
      rw [e1]
      exact h'

theorem ilog2_neg (q : ℚ) : ilog2 (-q) = ilog2 q := by
  unfold ilog2
  simp only [Rat.neg_num, Int.natAbs_neg, Rat.neg_den, abs_neg]

theorem ilog2_mono (q1 q2 : ℚ) (h1 : 0 < q1) (h : q1 ≤ q2) : ilog2 q1 ≤ ilog2 q2 := by
  obtain ⟨ha, _⟩ := ilog2_spec q1 h1.ne'
  obtain ⟨_, hb⟩ := ilog2_spec q2 (h1.trans_le h).ne'
  rw [abs_of_pos h1] at ha
  rw [abs_of_pos (h1.trans_le h)] at hb
  have : pow2 (ilog2 q1) < pow2 (ilog2 q2 + 1) := lt_of_le_of_lt (ha.trans h) hb
  rw [pow2_lt_iff] at this
  omega

/-! ## Nearest rounding -/

theorem isqrt_bits_spec (n : ℕ) : ∀ (b r : ℕ), r * r ≤ n → n < (r + 2 ^ b) * (r + 2 ^ b) →
    isqrt_bits n b r * isqrt_bits n b r ≤ n
      ∧ n < (isqrt_bits n b r + 1) * (isqrt_bits n b r + 1)
  | 0, r, h1, h2 => by
    simp only [isqrt_bits]
    simp only [pow_zero] at h2
    exact ⟨h1, h2⟩
  | b + 1, r, h1, h2 => by
    simp only [isqrt_bits]
    split_ifs with h
    · apply isqrt_bits_spec n b (r + 2 ^ b) h
      have : r + 2 ^ b + 2 ^ b = r + 2 ^ (b + 1) := by rw [pow_succ]; ring
      rw [this]
      exact h2
    · exact isqrt_bits_spec n b r h1 (not_le.mp h)

/-- The function `isqrt` is the floor of the square root. -/
theorem isqrt_spec (n : ℕ) : isqrt n * isqrt n ≤ n ∧ n < (isqrt n + 1) * (isqrt n + 1) := by
  unfold isqrt
  apply isqrt_bits_spec n _ 0 (by simp)
  rw [Nat.zero_add, ← pow_add]
  rcases Nat.eq_zero_or_pos n with h | h
  · subst h
    positivity
  · have h1 := (log2_spec n h).2
    have h2 : log2 n + 1 ≤ log2 n / 2 + 1 + (log2 n / 2 + 1) := by omega
    exact lt_of_lt_of_le h1 (Nat.pow_le_pow_right (by norm_num) h2)

theorem isqrt_eq_sqrt (n : ℕ) : isqrt n = Nat.sqrt n :=
  Nat.eq_sqrt.mpr (isqrt_spec n)

/-- The function `round_half_even` gives an integer nearest to its argument. -/
theorem round_half_even_near (m : ℚ) : |(round_half_even m : ℚ) - m| ≤ 1 / 2 := by
  have h1 := Int.floor_le m
  have h2 := Int.lt_floor_add_one m
  unfold round_half_even
  rw [abs_le]
  split_ifs <;> push_cast <;> constructor <;> linarith

/-- The function `rnd` gives a multiple of the unit in the last place of its
argument that is nearest to the argument. -/
theorem rnd_near (p : ℕ) (emin : ℤ) (q : ℚ) (hq : q ≠ 0) :
    (∃ n : ℤ, rnd p emin q = (n : ℚ) * pow2 (max (ilog2 q) emin - ((p : ℤ) - 1))) ∧
    |rnd p emin q - q| ≤ pow2 (max (ilog2 q) emin - ((p : ℤ) - 1)) / 2 := by
  have hu := pow2_pos (max (ilog2 q) emin - ((p : ℤ) - 1))
  unfold rnd
  rw [if_neg hq]
  refine ⟨⟨_, rfl⟩, ?_⟩
  have h := round_half_even_near (q / pow2 (max (ilog2 q) emin - ((p : ℤ) - 1)))
  have hq' : q = q / pow2 (max (ilog2 q) emin - ((p : ℤ) - 1))
      * pow2 (max (ilog2 q) emin - ((p : ℤ) - 1)) := (div_mul_cancel₀ q hu.ne').symm
  generalize q / pow2 (max (ilog2 q) emin - ((p : ℤ) - 1)) = m at h hq'
  generalize pow2 (max (ilog2 q) emin - ((p : ℤ) - 1)) = u at hu hq'
  rw [hq', ← sub_mul, abs_mul, abs_of_pos hu]
  have := mul_le_mul_of_nonneg_right h hu.le
  linarith

/-- The function `sqrt64` gives, for `c > 0`, a multiple `n * 2^s` of the unit
`2^s`, `s = sqrt_scale c`, such that `n - 1/2 <= sqrt(c)/2^s < n + 1/2`: a
multiple nearest to the square root. -/
theorem sqrt64_near (c : ℚ) (hc : 0 < c) :
    ∃ n : ℕ, sqrt64 c = (n : ℚ) * pow2 (sqrt_scale c) ∧
      (2 * (n : ℚ) - 1) * (2 * (n : ℚ) - 1) ≤ 4 * (c / pow2 (2 * sqrt_scale c)) ∧
      4 * (c / pow2 (2 * sqrt_scale c)) < (2 * (n : ℚ) + 1) * (2 * (n : ℚ) + 1) := by
  have hy : 0 ≤ c / pow2 (2 * sqrt_scale c) := div_nonneg hc.le (pow2_pos _).le
  have hfl : 0 ≤ Int.floor (c / pow2 (2 * sqrt_scale c)) := Int.floor_nonneg.mpr hy
  obtain ⟨m, hm⟩ := Int.eq_ofNat_of_zero_le hfl
  have h1 := Int.floor_le (c / pow2 (2 * sqrt_scale c))
  have h2 := Int.lt_floor_add_one (c / pow2 (2 * sqrt_scale c))
  rw [hm] at h1 h2
  obtain ⟨hs1, hs2⟩ := isqrt_spec m
  have hs1q : ((isqrt m : ℕ) : ℚ) * ((isqrt m : ℕ) : ℚ) ≤ (m : ℚ) := by exact_mod_cast hs1
  have hs2q : ((m : ℚ)) + 1 ≤ (((isqrt m : ℕ) : ℚ) + 1) * (((isqrt m : ℕ) : ℚ) + 1) := by
    exact_mod_cast hs2
  have h1' : ((m : ℕ) : ℚ) ≤ c / pow2 (2 * sqrt_scale c) := by exact_mod_cast h1
  have h2' : c / pow2 (2 * sqrt_scale c) < ((m : ℕ) : ℚ) + 1 := by exact_mod_cast h2
  have hbig : (1 : ℚ) ≤ c / pow2 (2 * sqrt_scale c) := by
    rw [le_div_iff₀ (pow2_pos _), one_mul]
    have hlo := (ilog2_spec c hc.ne').1
    rw [abs_of_pos hc] at hlo
    refine le_trans ?_ hlo
    unfold sqrt_scale
    rw [pow2_le_iff, Int.fdiv_eq_ediv _ (by norm_num)]
    omega
  have hm1 : 1 ≤ m := by
    have : (1 : ℤ) ≤ Int.floor (c / pow2 (2 * sqrt_scale c)) :=
      Int.le_floor.mpr (by exact_mod_cast hbig)
    rw [hm] at this
    exact_mod_cast this
  have hn1 : 1 ≤ isqrt m := by
    by_contra h0
    have h00 : isqrt m = 0 := by omega
    rw [h00] at hs2
    omega
  have hn0 : (1 : ℚ) ≤ ((isqrt m : ℕ) : ℚ) := by exact_mod_cast hn1
  have hmant : sqrt_mant c = isqrt m := by
    unfold sqrt_mant
    rw [hm, Int.toNat_ofNat]
  unfold sqrt64
  rw [hmant]
  split_ifs with h
  · refine ⟨isqrt m, rfl, ?_, ?_⟩
    · nlinarith
    · push_cast at h
      linarith
  · refine ⟨isqrt m + 1, rfl, ?_, ?_⟩
    · push_cast at h ⊢
      have := not_lt.mp h
      nlinarith
    · push_cast
      nlinarith

/-! ## Rounding is monotone -/

theorem round_half_even_bounds (m : ℚ) :
    Int.floor m ≤ round_half_even m ∧ round_half_even m ≤ Int.floor m + 1 := by
  unfold round_half_even
  split_ifs <;> constructor <;> omega

theorem round_half_even_intCast (n : ℤ) : round_half_even (n : ℚ) = n := by
  unfold round_half_even
  simp

theorem round_half_even_mono (m1 m2 : ℚ) (h : m1 ≤ m2) :
    round_half_even m1 ≤ round_half_even m2 := by
  have hf : Int.floor m1 ≤ Int.floor m2 := Int.floor_mono h
  rcases lt_or_eq_of_le hf with hlt | heq
  · have h1 := (round_half_even_bounds m1).2
    have h2 := (round_half_even_bounds m2).1
    omega
  · unfold round_half_even
    rw [← heq]
    have hr : m1 - (Int.floor m1 : ℚ) ≤ m2 - (Int.floor m1 : ℚ) := by linarith
    split_ifs <;> first | omega | (exfalso; linarith)

theorem round_half_even_neg (m : ℚ) : round_half_even (-m) = -round_half_even m := by
  by_cases hint : (Int.floor m : ℚ) = m
  · rw [← hint, ← Int.cast_neg, round_half_even_intCast, round_half_even_intCast]
  · have hlt : (Int.floor m : ℚ) < m := lt_of_le_of_ne (Int.floor_le m) hint
    have hlt2 : m < (Int.floor m : ℚ) + 1 := Int.lt_floor_add_one m
    have hfl : Int.floor (-m) = -Int.floor m - 1 := by
      rw [Int.floor_eq_iff]
      push_cast
      constructor <;> linarith
    unfold round_half_even
    rw [hfl]
    push_cast
    split_ifs <;> first | omega | (exfalso; linarith)

theorem rnd_zero (p : ℕ) (emin : ℤ) : rnd p emin 0 = 0 := by
  unfold rnd
  simp

theorem rnd_neg (p : ℕ) (emin : ℤ) (q : ℚ) : rnd p emin (-q) = -rnd p emin q := by
  unfold rnd
  by_cases hq : q = 0
  · simp [hq]
  · have hq' : -q ≠ 0 := neg_ne_zero.mpr hq
    rw [if_neg hq, if_neg hq', ilog2_neg, neg_div, round_half_even_neg]
    push_cast
    ring

theorem rnd_nonneg (p : ℕ) (emin : ℤ) (q : ℚ) (hq : 0 ≤ q) : 0 ≤ rnd p emin q := by
  unfold rnd
  split_ifs with h
  · exact le_refl _
  · apply mul_nonneg _ (pow2_pos _).le
    have h0 : (0 : ℚ) ≤ q / pow2 (max (ilog2 q) emin - ((p : ℤ) - 1)) :=
      div_nonneg hq (pow2_pos _).le
    have := round_half_even_mono _ _ h0
    rw [show ((0 : ℚ)) = ((0 : ℤ) : ℚ) by simp, round_half_even_intCast] at this
    exact_mod_cast this

theorem rnd_mono_pos (p : ℕ) (hp : 1 ≤ p) (emin : ℤ) (q1 q2 : ℚ) (h1 : 0 < q1)
    (h : q1 ≤ q2) : rnd p emin q1 ≤ rnd p emin q2 := by
  have h2 : 0 < q2 := h1.trans_le h
  have hlog := ilog2_mono q1 q2 h1 h
  unfold rnd
  rw [if_neg h1.ne', if_neg h2.ne']
  rcases lt_or_eq_of_le (max_le_max_right emin hlog) with hlt | heq
  · -- different binades
    have he2 : max (ilog2 q2) emin = ilog2 q2 := by
      rcases le_total (ilog2 q2) emin with hc | hc
      · exfalso
        rw [max_eq_right hc] at hlt
        have := le_max_right (ilog2 q1) emin
        omega
      · exact max_eq_left hc
    obtain ⟨_, hb1⟩ := ilog2_spec q1 h1.ne'
    obtain ⟨ha2, _⟩ := ilog2_spec q2 h2.ne'
    rw [abs_of_pos h1] at hb1
    rw [abs_of_pos h2] at ha2
    obtain ⟨n, hn⟩ : ∃ n : ℕ, p = n + 1 := ⟨p - 1, by omega⟩
    subst hn
    -- the first rounds to at most `2^(e1+1)`
    have hu1 := pow2_pos (max (ilog2 q1) emin - (((n + 1 : ℕ) : ℤ) - 1))
    have hu2 := pow2_pos (max (ilog2 q2) emin - (((n + 1 : ℕ) : ℤ) - 1))
    have hm1 : q1 / pow2 (max (ilog2 q1) emin - (((n + 1 : ℕ) : ℤ) - 1))
        ≤ (((2 : ℤ) ^ (n + 1) : ℤ) : ℚ) := by
      rw [div_le_iff₀ hu1, ← pow2_natCast, ← pow2_add]
      have : pow2 (ilog2 q1 + 1) ≤ pow2 (((n + 1 : ℕ) : ℤ)
          + (max (ilog2 q1) emin - (((n + 1 : ℕ) : ℤ) - 1))) := by
        rw [pow2_le_iff]
        have := le_max_left (ilog2 q1) emin
        omega
      exact hb1.le.trans this
    have hr1 := round_half_even_mono _ _ hm1
    rw [round_half_even_intCast] at hr1
    have hm2 : (((2 : ℤ) ^ n : ℤ) : ℚ)
        ≤ q2 / pow2 (max (ilog2 q2) emin - (((n + 1 : ℕ) : ℤ) - 1)) := by
      rw [le_div_iff₀ hu2, ← pow2_natCast, ← pow2_add, he2]
      have : pow2 ((n : ℤ) + (ilog2 q2 - (((n + 1 : ℕ) : ℤ) - 1))) = pow2 (ilog2 q2) := by
        congr 1
        push_cast
        ring
      rw [this]
      exact ha2
    have hr2 := round_half_even_mono _ _ hm2
    rw [round_half_even_intCast] at hr2
    have hr1q : (round_half_even (q1 / pow2 (max (ilog2 q1) emin - (((n + 1 : ℕ) : ℤ) - 1))) : ℚ)
        ≤ (((2 : ℤ) ^ (n + 1) : ℤ) : ℚ) := by exact_mod_cast hr1
    have hr2q : (((2 : ℤ) ^ n : ℤ) : ℚ)
        ≤ (round_half_even (q2 / pow2 (max (ilog2 q2) emin - (((n + 1 : ℕ) : ℤ) - 1))) : ℚ) := by
      exact_mod_cast hr2
    calc (round_half_even (q1 / pow2 (max (ilog2 q1) emin - (((n + 1 : ℕ) : ℤ) - 1))) : ℚ)
          * pow2 (max (ilog2 q1) emin - (((n + 1 : ℕ) : ℤ) - 1))
        ≤ (((2 : ℤ) ^ (n + 1) : ℤ) : ℚ)
          * pow2 (max (ilog2 q1) emin - (((n + 1 : ℕ) : ℤ) - 1)) :=
          mul_le_mul_of_nonneg_right hr1q hu1.le
      _ = pow2 (max (ilog2 q1) emin + 1) := by
          rw [← pow2_natCast, ← pow2_add]
          congr 1
          push_cast
          ring
      _ ≤ pow2 (max (ilog2 q2) emin) := by
          rw [pow2_le_iff]
          omega
      _ = (((2 : ℤ) ^ n : ℤ) : ℚ)
          * pow2 (max (ilog2 q2) emin - (((n + 1 : ℕ) : ℤ) - 1)) := by
          rw [← pow2_natCast, ← pow2_add]
          congr 1
          push_cast
          ring
      _ ≤ (round_half_even (q2 / pow2 (max (ilog2 q2) emin - (((n + 1 : ℕ) : ℤ) - 1))) : ℚ)
          * pow2 (max (ilog2 q2) emin - (((n + 1 : ℕ) : ℤ) - 1)) :=
          mul_le_mul_of_nonneg_right hr2q hu2.le
  · -- the same binade
    rw [← heq]
    have hu := pow2_pos (max (ilog2 q1) emin - ((p : ℤ) - 1))
    have hm : q1 / pow2 (max (ilog2 q1) emin - ((p : ℤ) - 1))
        ≤ q2 / pow2 (max (ilog2 q1) emin - ((p : ℤ) - 1)) :=
      div_le_div_of_nonneg_right h hu.le
    have hr := round_half_even_mono _ _ hm
    have hrq : (round_half_even (q1 / pow2 (max (ilog2 q1) emin - ((p : ℤ) - 1))) : ℚ)
        ≤ (round_half_even (q2 / pow2 (max (ilog2 q1) emin - ((p : ℤ) - 1))) : ℚ) := by
      exact_mod_cast hr
    exact mul_le_mul_of_nonneg_right hrq hu.le

/-- Rounding to nearest is monotone. -/
theorem rnd_mono (p : ℕ) (hp : 1 ≤ p) (emin : ℤ) (q1 q2 : ℚ) (h : q1 ≤ q2) :
    rnd p emin q1 ≤ rnd p emin q2 := by
  rcases lt_trichotomy q1 0 with h1 | h1 | h1
  · rcases lt_or_le q2 0 with h2 | h2
    · have := rnd_mono_pos p hp emin (-q2) (-q1) (by linarith) (by linarith)
      rw [rnd_neg, rnd_neg] at this
      linarith
    · have ha := rnd_nonneg p emin (-q1) (by linarith)
      rw [rnd_neg] at ha
      have hb := rnd_nonneg p emin q2 h2
      linarith
  · subst h1
    rw [rnd_zero]
    exact rnd_nonneg p emin q2 h
  · exact rnd_mono_pos p hp emin q1 q2 h1 h

theorem to_float_mono (p : ℕ) (hp : 1 ≤ p) (emin emax : ℤ) (q1 q2 r1 r2 : ℚ)
    (h1 : to_float p emin emax q1 = some r1) (h2 : to_float p emin emax q2 = some r2)
    (h : q1 ≤ q2) : r1 ≤ r2 := by
  unfold to_float at h1 h2
  split_ifs at h1 h2
  injection h1 with h1
  injection h2 with h2
  rw [← h1, ← h2]
  exact rnd_mono p hp emin q1 q2 h

theorem to_float_nonneg (p : ℕ) (emin emax : ℤ) (q r : ℚ)
    (h1 : to_float p emin emax q = some r) (h : 0 ≤ q) : 0 ≤ r := by
  unfold to_float at h1
  split_ifs at h1
  injection h1 with h1
  rw [← h1]
  exact rnd_nonneg p emin q h

theorem f32_mono (q1 q2 r1 r2 : ℚ) (h1 : f32 q1 = some r1) (h2 : f32 q2 = some r2)
    (h : q1 ≤ q2) : r1 ≤ r2 :=
  to_float_mono 24 (by norm_num) _ _ q1 q2 r1 r2 h1 h2 h

theorem f64_mono (q1 q2 r1 r2 : ℚ) (h1 : f64 q1 = some r1) (h2 : f64 q2 = some r2)
    (h : q1 ≤ q2) : r1 ≤ r2 :=
  to_float_mono 53 (by norm_num) _ _ q1 q2 r1 r2 h1 h2 h

theorem f32_nonneg (q r : ℚ) (h1 : f32 q = some r) (h : 0 ≤ q) : 0 ≤ r :=
  to_float_nonneg 24 _ _ q r h1 h

theorem sqrt64_nonneg (c : ℚ) : 0 ≤ sqrt64 c := by
  unfold sqrt64
  split_ifs
  · exact mul_nonneg (Nat.cast_nonneg _) (pow2_pos _).le
  · exact mul_nonneg (Nat.cast_nonneg _) (pow2_pos _).le

/-! ## Line 91 in machine arithmetic -/

/-- The intermediate results of line 91 when the machine delivers a value. -/
theorem kld_value_eq_some (k : ℤ) (e z : ℚ) (n : ℤ) (h : kld_value k e z = some n) :
    0 < k ∧ ∃ a nk c b zd zf t x pw v : ℚ,
      (match f32 (2 * e) with
        | none => some 0
        | some d => if d = 0 then none else (f32 (k : ℚ)).bind (fun kf => f32 (kf / d)))
        = some a ∧
      f64 (9 * (k : ℚ)) = some nk ∧ f64 (2 / nk) = some c ∧ f64 (1 - c) = some b ∧
      f64 z = some zd ∧ f32 zd = some zf ∧ f64 (sqrt64 c * zf) = some t ∧
      f64 (b + t) = some x ∧ f64 (x * x * x) = some pw ∧ f64 (a * pw) = some v ∧
      n = Int.ceil v ∧ -2147483648 ≤ n ∧ n ≤ 2147483647 := by
  unfold kld_value at h
  split_ifs at h with hk
  simp only [Option.bind_eq_some] at h
  obtain ⟨a, ha, nk, hnk, c, hc, b, hb, zf, ⟨zd, hzd, hzf⟩, t, ht, x, hx, pw, hpw, v, hv, hr⟩ := h
  split_ifs at hr with hrange
  injection hr with hr
  refine ⟨not_le.mp hk, a, nk, c, b, zd, zf, t, x, pw, v, ha, hnk, hc, hb, hzd, hzf, ht, hx,
    hpw, hv, hr.symm, ?_⟩
  rw [← hr]
  exact hrange

/-- The value of line 91, when the machine delivers one, is in the range of
`int`. -/
theorem kld_value_range (k : ℤ) (e z : ℚ) (n : ℤ) (h : kld_value k e z = some n) :
    -2147483648 ≤ n ∧ n ≤ 2147483647 := by
  obtain ⟨_, a, nk, c, b, zd, zf, t, x, pw, v, _, _, _, _, _, _, _, _, _, _, _, hr⟩ :=
    kld_value_eq_some k e z n h
  exact hr

theorem kld_candidate_ge (k : ℤ) (e z : ℚ) : -2147483648 ≤ kld_candidate k e z := by
  unfold kld_candidate
  cases h : kld_value k e z with
  | none => simp
  | some n => exact (kld_value_range k e z n h).1

/-- The factor `k/(2*max_error)` of line 91 is not negative when
`max_error > 0`. -/
theorem kld_scale_nonneg (k : ℤ) (hk : 0 < k) (e : ℚ) (he : 0 < e) (a : ℚ)
    (h : (match f32 (2 * e) with
      | none => some 0
      | some d => if d = 0 then none else (f32 (k : ℚ)).bind (fun kf => f32 (kf / d)))
        = some a) : 0 ≤ a := by
  cases hd : f32 (2 * e) with
  | none =>
    rw [hd] at h
    injection h with h
    rw [← h]
  | some d =>
    rw [hd] at h
    simp only at h
    split_ifs at h with hd0
    simp only [Option.bind_eq_some] at h
    obtain ⟨kf, hkf, ha⟩ := h
    have hdn : 0 ≤ d := f32_nonneg _ _ hd (by linarith)
    have hkn : 0 ≤ kf := f32_nonneg _ _ hkf (by exact_mod_cast hk.le)
    exact f32_nonneg _ _ ha (div_nonneg hkn hdn)

/-- The value of line 91, as the machine computes it, is non-decreasing in the
z-value when `max_error > 0`, as long as it stays in the range of `int`. -/
theorem kld_value_mono_z (k : ℤ) (e z1 z2 : ℚ) (n1 n2 : ℤ) (he : 0 < e) (hz : z1 ≤ z2)
    (h1 : kld_value k e z1 = some n1) (h2 : kld_value k e z2 = some n2) : n1 ≤ n2 := by
  obtain ⟨hk0, a, nk, c, b, zd1, zf1, t1, x1, pw1, v1, ha, hnk, hc, hb, hzd1, hzf1, ht1, hx1,
    hpw1, hv1, hr1, _⟩ := kld_value_eq_some k e z1 n1 h1
  obtain ⟨_, a', nk', c', b', zd2, zf2, t2, x2, pw2, v2, ha', hnk', hc', hb', hzd2, hzf2, ht2,
    hx2, hpw2, hv2, hr2, _⟩ := kld_value_eq_some k e z2 n2 h2
  have ea : a' = a := Option.some.inj (ha'.symm.trans ha)
  have enk : nk' = nk := Option.some.inj (hnk'.symm.trans hnk)
  subst ea enk
  have ec : c' = c := Option.some.inj (hc'.symm.trans hc)
  subst ec
  have eb : b' = b := Option.some.inj (hb'.symm.trans hb)
  subst eb
  have ha0 : 0 ≤ a' := kld_scale_nonneg k hk0 e he a' ha
  have hzd : zd1 ≤ zd2 := f64_mono _ _ _ _ hzd1 hzd2 hz
  have hzf : zf1 ≤ zf2 := f32_mono _ _ _ _ hzf1 hzf2 hzd
  have ht : t1 ≤ t2 := f64_mono _ _ _ _ ht1 ht2
    (mul_le_mul_of_nonneg_left hzf (sqrt64_nonneg c'))
  have hx : x1 ≤ x2 := f64_mono _ _ _ _ hx1 hx2 (by linarith)
  have hcube : x1 * x1 * x1 ≤ x2 * x2 * x2 := by
    have := (Odd.strictMono_pow (R := ℚ) (by decide : Odd 3)).monotone hx
    simp only [pow_succ, pow_zero, one_mul] at this
    exact this
  have hpw : pw1 ≤ pw2 := f64_mono _ _ _ _ hpw1 hpw2 hcube
  have hv : v1 ≤ v2 := f64_mono _ _ _ _ hv1 hv2 (mul_le_mul_of_nonneg_left hpw ha0)
  rw [hr1, hr2]
  exact Int.ceil_mono hv

/-! ## Comparison of bins -/

theorem eqf_iff (a b : KeyVal) : eqf a b = true ↔ a = b ∧ a ≠ KeyVal.nan := by
  cases a <;> cases b <;> simp [eqf]

/-- Two bins compare equal exactly when they are the same sequence and hold no
NaN. -/
theorem key_eq_iff : ∀ a b : List KeyVal,
    key_eq a b = true ↔ a = b ∧ KeyVal.nan ∉ a
  | [], [] => by simp [key_eq]
  | [], _ :: _ => by simp [key_eq]
  | _ :: _, [] => by simp [key_eq]
  | x :: l, y :: m => by
    simp only [key_eq, Bool.and_eq_true, eqf_iff, key_eq_iff l m, List.cons.injEq,
      List.mem_cons, not_or]
    constructor
    · rintro ⟨⟨h1, h2⟩, h3, h4⟩
      exact ⟨⟨h1, h3⟩, fun h => h2 h.symm, h4⟩
    · rintro ⟨⟨h1, h3⟩, h2, h4⟩
      exact ⟨⟨h1, fun h => h2 h.symm⟩, h3, h4⟩

/-- The search finds a bin exactly when the bin is stored and holds no NaN. -/
theorem seen_iff (cb : List KeyVal) (bins : List (List KeyVal)) :
    seen cb bins = true ↔ cb ∈ bins ∧ KeyVal.nan ∉ cb := by
  simp only [seen, List.any_eq_true, key_eq_iff]
  constructor
  · rintro ⟨b, hb, rfl, hn⟩
    exact ⟨hb, hn⟩
  · rintro ⟨hb, hn⟩
    exact ⟨cb, hb, rfl, hn⟩

theorem seen_eq_false_of_not_mem (cb : List KeyVal) (bins : List (List KeyVal))
    (h : cb ∉ bins) : seen cb bins = false := by
  rw [← Bool.not_eq_true, seen_iff]
  exact fun hc => h hc.1

/-! ## The two branches of `update` -/

theorem update_old_bin (s : kld_sampling) (x : List ℚ) (hne : s.bin_size ≠ [])
    (hlen : x.length = s.bin_size.length) (hmem : seen (curr_bin x s.bin_size) s.bins = true) :
    update s x
      = .ok (s.kld_samples, { s with curr_sample := x, num_samples := s.num_samples + 1 }) := by
  unfold update
  simp [hne, hlen, in_empty_bin, hmem]

theorem update_new_bin (s : kld_sampling) (x : List ℚ) (hne : s.bin_size ≠ [])
    (hlen : x.length = s.bin_size.length) (hnew : seen (curr_bin x s.bin_size) s.bins = false) :
    update s x
      = .ok (ratchet s,
          { s with
            curr_sample := x
            num_samples := s.num_samples + 1
            bins := s.bins ++ [curr_bin x s.bin_size]
            support_samples := s.support_samples + 1
            kld_samples := ratchet s }) := by
  unfold update ratchet
  simp only [List.isEmpty_iff, hne, hlen, in_empty_bin, hnew]
  have hk : s.support_samples + 1 - 1 = s.support_samples := by ring
  simp only [hk]
  by_cases h2 : 2 ≤ s.support_samples + 1
  · by_cases h3 : s.kld_samples < kld_candidate s.support_samples s.max_error s.zvalue
    · simp [h2, h3]
    · simp [h2, h3]
  · simp [h2]

theorem update_error_iff (s : kld_sampling) (x : List ℚ) :
    (∃ e, update s x = .error e) ↔ (s.bin_size = [] ∨ x.length ≠ s.bin_size.length) := by
  by_cases h1 : s.bin_size = []
  · simp [update, h1]
  · by_cases h2 : x.length = s.bin_size.length
    · by_cases h3 : seen (curr_bin x s.bin_size) s.bins = true
      · simp [update_old_bin s x h1 h2 h3, h1, h2]
      · simp [update_new_bin s x h1 h2 ((Bool.not_eq_true _).mp h3), h1, h2]
    · simp [update, h1, h2]

theorem ratchet_ge (s : kld_sampling) : s.kld_samples ≤ ratchet s := by
  unfold ratchet
  split_ifs with h
  · exact le_of_lt h.2
  · exact le_refl _

theorem update_cases (s : kld_sampling) (x : List ℚ) (r : ℤ) (s' : kld_sampling)
    (h : update s x = .ok (r, s')) :
    s.bin_size ≠ [] ∧ x.length = s.bin_size.length ∧
    ((seen (curr_bin x s.bin_size) s.bins = true ∧ r = s.kld_samples ∧
        s' = { s with curr_sample := x, num_samples := s.num_samples + 1 }) ∨
     (seen (curr_bin x s.bin_size) s.bins = false ∧ r = ratchet s ∧
        s' = { s with
                curr_sample := x
                num_samples := s.num_samples + 1
                bins := s.bins ++ [curr_bin x s.bin_size]
                support_samples := s.support_samples + 1
                kld_samples := ratchet s })) := by
  have hok : ¬ (s.bin_size = [] ∨ x.length ≠ s.bin_size.length) := by
    rw [← update_error_iff]
    rintro ⟨e, he⟩
    rw [he] at h
    cases h
  push_neg at hok
  refine ⟨hok.1, hok.2, ?_⟩
  by_cases hmem : seen (curr_bin x s.bin_size) s.bins = true
  · left
    rw [update_old_bin s x hok.1 hok.2 hmem] at h
    injection h with h
    injection h with h1 h2
    exact ⟨hmem, h1.symm, h2.symm⟩
  · right
    rw [update_new_bin s x hok.1 hok.2 ((Bool.not_eq_true _).mp hmem)] at h
    injection h with h
    injection h with h1 h2
    exact ⟨(Bool.not_eq_true _).mp hmem, h1.symm, h2.symm⟩

theorem update_total (s : kld_sampling) (x : List ℚ) (hne : s.bin_size ≠ [])
    (hlen : x.length = s.bin_size.length) : ∃ r s', update s x = .ok (r, s') := by
  by_cases hmem : seen (curr_bin x s.bin_size) s.bins = true
  · exact ⟨_, _, update_old_bin s x hne hlen hmem⟩
  · exact ⟨_, _, update_new_bin s x hne hlen ((Bool.not_eq_true _).mp hmem)⟩

theorem update_frame (s : kld_sampling) (x : List ℚ) (r : ℤ) (s' : kld_sampling)
    (h : update s x = .ok (r, s')) :
    r = s'.kld_samples ∧ s.kld_samples ≤ s'.kld_samples ∧ s'.bin_size = s.bin_size ∧
    s'.max_error = s.max_error ∧ s'.zvalue = s.zvalue ∧
    s'.num_samples = s.num_samples + 1 := by
  obtain ⟨_, _, hc⟩ := update_cases s x r s' h
  rcases hc with ⟨_, hr, hs⟩ | ⟨_, hr, hs⟩
  · subst hr hs
    exact ⟨rfl, le_refl _, rfl, rfl, rfl, rfl⟩
  · subst hr hs
    exact ⟨rfl, ratchet_ge s, rfl, rfl, rfl, rfl⟩

theorem feed_cons_ok (s : kld_sampling) (x : List ℚ) (xs : List (List ℚ)) (rs : List ℤ)
    (s' : kld_sampling) (h : feed s (x :: xs) = .ok (rs, s')) :
    ∃ r s1 rs1, update s x = .ok (r, s1) ∧ feed s1 xs = .ok (rs1, s') ∧ rs = r :: rs1 := by
  simp only [feed] at h
  cases hu : update s x with
  | error e => rw [hu] at h; cases h
  | ok p =>
    obtain ⟨r, s1⟩ := p
    rw [hu] at h
    simp only at h
    cases hf : feed s1 xs with
    | error e => rw [hf] at h; cases h
    | ok q =>
      obtain ⟨rs1, s2⟩ := q
      rw [hf] at h
      simp only at h
      injection h with h
      injection h with h1 h2
      subst h1 h2
      exact ⟨r, s1, rs1, rfl, hf, rfl⟩

theorem feed_frame (xs : List (List ℚ)) : ∀ (s : kld_sampling) (rs : List ℤ) (s' : kld_sampling),
    feed s xs = .ok (rs, s') →
    s'.bin_size = s.bin_size ∧ s'.max_error = s.max_error ∧ s'.zvalue = s.zvalue ∧
    s.kld_samples ≤ s'.kld_samples ∧ rs.length = xs.length ∧
    (∀ r ∈ rs, s.kld_samples ≤ r ∧ r ≤ s'.kld_samples) := by
  induction xs with
  | nil =>
    intro s rs s' h
    simp only [feed] at h
    injection h with h
    injection h with h1 h2
    subst h1 h2
    simp
  | cons x xs ih =>
    intro s rs s' h
    obtain ⟨r, s1, rs1, hu, hf, hrs⟩ := feed_cons_ok s x xs rs s' h
    obtain ⟨hr, hle, hb, he, hz, _⟩ := update_frame s x r s1 hu
    obtain ⟨hb1, he1, hz1, hle1, hlen1, hall⟩ := ih s1 rs1 s' hf
    subst hrs
    refine ⟨hb1.trans hb, he1.trans he, hz1.trans hz, hle.trans hle1, by simp [hlen1], ?_⟩
    intro r0 hr0
    rcases List.mem_cons.mp hr0 with h0 | h0
    · subst h0
      rw [hr]
      exact ⟨hle, hle1⟩
    · exact ⟨hle.trans (hall r0 h0).1, (hall r0 h0).2⟩

theorem feed_total (xs : List (List ℚ)) : ∀ (s : kld_sampling), s.bin_size ≠ [] →
    (∀ x ∈ xs, x.length = s.bin_size.length) → ∃ rs s', feed s xs = .ok (rs, s') := by
  induction xs with
  | nil => intro s _ _; exact ⟨[], s, rfl⟩
  | cons x xs ih =>
    intro s hne hall
    obtain ⟨r, s1, hu⟩ := update_total s x hne (hall x (List.mem_cons_self x xs))
    have hb := (update_frame s x r s1 hu).2.2.1
    obtain ⟨rs, s2, hf⟩ := ih s1 (by rw [hb]; exact hne)
      (fun y hy => by rw [hb]; exact hall y (List.mem_cons_of_mem x hy))
    exact ⟨r :: rs, s2, by simp [feed, hu, hf]⟩

theorem init_kld_samples (s0 : kld_sampling) (ztable : List ℚ) (quantile err : ℚ)
    (bsz : List ℚ) (sample_min : ℤ) :
    (init s0 ztable quantile err bsz sample_min).kld_samples = max sample_min 10 := by
  simp only [init, absolute_min]
  split_ifs with h
  · exact (max_eq_right (le_of_lt h)).symm
  · exact (max_eq_left (not_lt.mp h)).symm

/-! ## Claims -/

/-- C1 (monotonic ratchet).  In a state reached by `init` followed by
successful `update` calls, an `update` with a sample of matching dimension
returns (when the bin-width vector is not empty), and every count it returns is
at least the stored `kld_samples` before the call, at least every count
returned earlier in the round, and so at least the count of the previous
`update`. -/
theorem C1_monotonic_ratchet (s0 : kld_sampling) (ztable : List ℚ) (quantile err : ℚ)
    (bsz : List ℚ) (sample_min : ℤ) (samples : List (List ℚ)) (rs : List ℤ)
    (s : kld_sampling) (x : List ℚ)
    (hrun : feed (init s0 ztable quantile err bsz sample_min) samples = .ok (rs, s))
    (hdim : x.length = bsz.length) :
    (bsz ≠ [] → ∃ r s', update s x = .ok (r, s')) ∧
    ∀ r s', update s x = .ok (r, s') →
      s.kld_samples ≤ r ∧ (∀ r0 ∈ rs, r0 ≤ r) ∧ (∀ r0, rs.getLast? = some r0 → r0 ≤ r) := by
  obtain ⟨hb, _, _, _, _, hall⟩ := feed_frame samples _ rs s hrun
  have hbs : s.bin_size = bsz := hb
  constructor
  · intro hne
    exact update_total s x (by rw [hbs]; exact hne) (by rw [hbs]; exact hdim)
  · intro r s' hu
    obtain ⟨hr, hle, _⟩ := update_frame s x r s' hu
    have hge : s.kld_samples ≤ r := by rw [hr]; exact hle
    refine ⟨hge, fun r0 h0 => (hall r0 h0).2.trans hge, ?_⟩
    intro r0 h0
    exact (hall r0 (List.mem_of_getLast?_eq_some h0)).2.trans hge

theorem C1_monotonic_ratchet_witness :
    feed (init (fresh 0 0 0 0 0 0) [0] (1 / 2) (1 / 10) [1 / 10] 10)
        [[5 / 100], [15 / 100], [25 / 100]] = .ok ([10, 10, 10], three_bins) ∧
    ∃ r s', update three_bins [35 / 100] = .ok (r, s') ∧ three_bins.kld_samples ≤ r ∧
      ∀ r0 ∈ [10, 10, 10], r0 ≤ r :=
  have hrun : feed (init (fresh 0 0 0 0 0 0) [0] (1 / 2) (1 / 10) [1 / 10] 10)
        [[5 / 100], [15 / 100], [25 / 100]] = .ok ([10, 10, 10], three_bins) := by decide!
  have h := C1_monotonic_ratchet (fresh 0 0 0 0 0 0) [0] (1 / 2) (1 / 10) [1 / 10] 10
    [[5 / 100], [15 / 100], [25 / 100]] [10, 10, 10] three_bins [35 / 100] hrun (by decide)
  ⟨hrun, (h.1 (by decide)).elim fun r hr => hr.elim fun s' hs =>
    ⟨r, s', hs, (h.2 r s' hs).1, (h.2 r s' hs).2.1⟩⟩

/-- C2 (minimum floor).  `init` stores exactly `max(sample_min, 10)`; every
count returned by the later `update` calls of the round, and the stored count
after them, is at least that value; and with a non-empty bin-width vector and
samples of matching dimension the calls do return. -/
theorem C2_minimum_floor (s0 : kld_sampling) (ztable : List ℚ) (quantile err : ℚ)
    (bsz : List ℚ) (sample_min : ℤ) :
    (init s0 ztable quantile err bsz sample_min).kld_samples = max sample_min 10 ∧
    (∀ samples rs s, feed (init s0 ztable quantile err bsz sample_min) samples = .ok (rs, s) →
      (∀ r ∈ rs, max sample_min 10 ≤ r) ∧ max sample_min 10 ≤ s.kld_samples) ∧
    (bsz ≠ [] → ∀ samples : List (List ℚ), (∀ x ∈ samples, x.length = bsz.length) →
      ∃ rs s, feed (init s0 ztable quantile err bsz sample_min) samples = .ok (rs, s) ∧
        rs.length = samples.length ∧ ∀ r ∈ rs, max sample_min 10 ≤ r) := by
  have hinit := init_kld_samples s0 ztable quantile err bsz sample_min
  have hfloor : ∀ samples rs s,
      feed (init s0 ztable quantile err bsz sample_min) samples = .ok (rs, s) →
      (∀ r ∈ rs, max sample_min 10 ≤ r) ∧ max sample_min 10 ≤ s.kld_samples := by
    intro samples rs s hrun
    obtain ⟨_, _, _, hle, _, hall⟩ := feed_frame samples _ rs s hrun
    rw [hinit] at hle hall
    exact ⟨fun r hr => (hall r hr).1, hle⟩
  refine ⟨hinit, hfloor, ?_⟩
  intro hne samples hdim
  obtain ⟨rs, s, hrun⟩ := feed_total samples (init s0 ztable quantile err bsz sample_min)
    hne hdim
  exact ⟨rs, s, hrun, (feed_frame samples _ rs s hrun).2.2.2.2.1, (hfloor samples rs s hrun).1⟩

theorem C2_minimum_floor_witness :
    feed (init (fresh 0 0 0 0 0 0) [0] (1 / 2) (1 / 10) [1 / 10] 3)
        [[5 / 100], [15 / 100], [25 / 100], [35 / 100]]
      = .ok ([10, 10, 10, 12], four_bins) ∧
    ∀ r ∈ [10, 10, 10, 12], max (3 : ℤ) 10 ≤ r :=
  have hrun : feed (init (fresh 0 0 0 0 0 0) [0] (1 / 2) (1 / 10) [1 / 10] 3)
        [[5 / 100], [15 / 100], [25 / 100], [35 / 100]]
      = .ok ([10, 10, 10, 12], four_bins) := by decide!
  ⟨hrun, ((C2_minimum_floor (fresh 0 0 0 0 0 0) [0] (1 / 2) (1 / 10) [1 / 10] 3).2.1
    _ _ _ hrun).1⟩

/-- Result of the table scan: either a first index `j` of the remaining table
holds an entry `>= c` and the value is `(i + j)/100`, or no entry qualifies and
the value is 4.1. -/
theorem zscan_spec (c : ℚ) (l : List ℚ) : ∀ i : ℕ,
    (∃ (j : ℕ) (t : ℚ), l[j]? = some t ∧ c ≤ t ∧
        (∀ (j' : ℕ) (t' : ℚ), j' < j → l[j']? = some t' → t' < c) ∧
        zscan c l i = ((i + j : ℕ) : ℚ) / 100) ∨
    ((∀ (j : ℕ) (t : ℚ), l[j]? = some t → t < c) ∧ zscan c l i = 41 / 10) := by
  induction l with
  | nil =>
    intro i
    right
    exact ⟨fun j t h => by simp at h, rfl⟩
  | cons a rest ih =>
    intro i
    by_cases ha : c ≤ a
    · left
      refine ⟨0, a, by simp, ha, fun j' t' hj => absurd hj (Nat.not_lt_zero _), ?_⟩
      simp [zscan, ha]
    · have hz : zscan c (a :: rest) i = zscan c rest (i + 1) := by simp [zscan, ha]
      rcases ih (i + 1) with ⟨j, t, hj, hct, hmin, hval⟩ | ⟨hnone, hval⟩
      · left
        refine ⟨j + 1, t, by simpa using hj, hct, ?_, ?_⟩
        · intro j' t' hlt hget
          cases j' with
          | zero =>
            simp at hget
            subst hget
            exact not_le.mp ha
          | succ n =>
            exact hmin n t' (by omega) (by simpa using hget)
        · rw [hz, hval]
          congr 2
          omega
      · right
        refine ⟨?_, hz.trans hval⟩
        intro j t hget
        cases j with
        | zero =>
          simp at hget
          subst hget
          exact not_le.mp ha
        | succ n => exact hnone n t (by simpa using hget)

/-- C4 (z-value lookup).  `init` sets `zvalue` to `i/100` for the smallest index
`i` whose table entry is `>= c`, `c` the clamped confidence (so the entry at `i`
is `>= c` and every entry before it is `< c`); when no entry qualifies, the
empty table included, `zvalue` is the fallback 4.1. -/
theorem C4_zvalue_lookup (s0 : kld_sampling) (ztable : List ℚ) (quantile err : ℚ)
    (bsz : List ℚ) (sample_min : ℤ) :
    (init s0 ztable quantile err bsz sample_min).confidence = clamp_confidence quantile ∧
    ((∃ (i : ℕ) (t : ℚ), ztable[i]? = some t ∧ clamp_confidence quantile ≤ t ∧
        (∀ (j : ℕ) (t' : ℚ), j < i → ztable[j]? = some t' → t' < clamp_confidence quantile) ∧
        (init s0 ztable quantile err bsz sample_min).zvalue = (i : ℚ) / 100) ∨
     ((∀ (j : ℕ) (t : ℚ), ztable[j]? = some t → t < clamp_confidence quantile) ∧
        (init s0 ztable quantile err bsz sample_min).zvalue = 41 / 10)) ∧
    (init s0 [] quantile err bsz sample_min).zvalue = 41 / 10 := by
  refine ⟨rfl, ?_, rfl⟩
  rcases zscan_spec (clamp_confidence quantile) ztable 0 with ⟨j, t, hj, hct, hmin, hval⟩ | h
  · left
    refine ⟨j, t, hj, hct, hmin, ?_⟩
    show zscan (clamp_confidence quantile) ztable 0 = _
    rw [hval]
    simp
  · right
    exact h

/-- C5 (confidence clamp).  For every quantile the confidence stored by `init`
and compared against the table equals `min(0.49998, max(0, quantile - 0.5))`
and lies in the closed interval `[0, 0.49998]`. -/
theorem C5_confidence_clamp (s0 : kld_sampling) (ztable : List ℚ) (quantile err : ℚ)
    (bsz : List ℚ) (sample_min : ℤ) :
    (init s0 ztable quantile err bsz sample_min).confidence
        = min (49998 / 100000) (max 0 (quantile - 1 / 2)) ∧
    0 ≤ (init s0 ztable quantile err bsz sample_min).confidence ∧
    (init s0 ztable quantile err bsz sample_min).confidence ≤ 49998 / 100000 ∧
    (init s0 ztable quantile err bsz sample_min).zvalue
        = zscan (init s0 ztable quantile err bsz sample_min).confidence ztable 0 := by
  refine ⟨rfl, ?_, ?_, rfl⟩
  · show 0 ≤ clamp_confidence quantile
    unfold clamp_confidence
    exact le_min (by norm_num) (le_max_left _ _)
  · show clamp_confidence quantile ≤ _
    unfold clamp_confidence
    exact min_le_left _ _

/-- Feeding samples whose bins the search finds in the support set returns the
stored count every time and changes only `curr_sample` and `num_samples`. -/
theorem feed_old_bins (xs : List (List ℚ)) : ∀ s : kld_sampling, s.bin_size ≠ [] →
    (∀ x ∈ xs, x.length = s.bin_size.length ∧ seen (curr_bin x s.bin_size) s.bins = true) →
    ∃ s2, feed s xs = .ok (List.replicate xs.length s.kld_samples, s2) ∧
      s2.support_samples = s.support_samples ∧ s2.kld_samples = s.kld_samples ∧
      s2.bins = s.bins ∧ s2.bin_size = s.bin_size := by
  induction xs with
  | nil => intro s _ _; exact ⟨s, rfl, rfl, rfl, rfl, rfl⟩
  | cons x xs ih =>
    intro s hne hall
    obtain ⟨hlen, hmem⟩ := hall x (List.mem_cons_self x xs)
    have hu := update_old_bin s x hne hlen hmem
    obtain ⟨s2, hf, h1, h2, h3, h4⟩ :=
      ih { s with curr_sample := x, num_samples := s.num_samples + 1 } hne
        (fun y hy => hall y (List.mem_cons_of_mem x hy))
    refine ⟨s2, ?_, h1, h2, h3, h4⟩
    simp only [feed, hu, hf, List.length_cons, List.replicate_succ]

/-- After a successful `update` the bin of the sample is stored in the support
set. -/
theorem update_records_bin (s : kld_sampling) (x : List ℚ) (r : ℤ) (s' : kld_sampling)
    (h : update s x = .ok (r, s')) : curr_bin x s'.bin_size ∈ s'.bins := by
  obtain ⟨_, _, hc⟩ := update_cases s x r s' h
  rcases hc with ⟨hmem, _, hs⟩ | ⟨_, _, hs⟩
  · subst hs
    exact ((seen_iff _ _).mp hmem).1
  · subst hs
    simp

/-- A run of successful `update` calls does not decrease the support size. -/
theorem feed_support_le (xs : List (List ℚ)) : ∀ (s : kld_sampling) (rs : List ℤ)
    (s' : kld_sampling), feed s xs = .ok (rs, s') → s.support_samples ≤ s'.support_samples := by
  induction xs with
  | nil =>
    intro s rs s' h
    simp only [feed] at h
    injection h with h
    injection h with _ h2
    subst h2
    exact le_refl _
  | cons x xs ih =>
    intro s rs s' h
    obtain ⟨r, s1, rs1, hu, hf, _⟩ := feed_cons_ok s x xs rs s' h
    have h1 := ih s1 rs1 s' hf
    obtain ⟨_, _, hc⟩ := update_cases s x r s1 hu
    rcases hc with ⟨_, _, hs⟩ | ⟨_, _, hs⟩
    · subst hs
      exact h1
    · subst hs
      have : s.support_samples + 1 ≤ s'.support_samples := h1
      omega

/-- C8, counterexample.  With the bin width 0 the sample 0 has the bin `0/0`, a
NaN, which compares equal to no stored bin: after `init(0.5, 1/16, [0], 10)` on
the table `[0]` the first `update([0])` returns 10 with support size 1, and
two further `update([0])` calls return 10 and 12 and leave the support size at
3. -/
theorem C8_counterexample :
    curr_bin [0] [0] = [KeyVal.nan] ∧
    update (init (fresh 0 0 0 0 0 0) [0] (1 / 2) (1 / 16) [0] 10) [0]
      = .ok (10,
          { confidence := 0, max_error := 1 / 16, bin_size := [0], num_samples := 1,
            bins := [[KeyVal.nan]], curr_sample := [0], support_samples := 1,
            kld_samples := 10, zvalue := 0 }) ∧
    feed
        { confidence := 0, max_error := 1 / 16, bin_size := [0], num_samples := 1,
          bins := [[KeyVal.nan]], curr_sample := [0], support_samples := 1,
          kld_samples := 10, zvalue := 0 }
        (List.replicate 2 [0])
      = .ok ([10, 12],
          { confidence := 0, max_error := 1 / 16, bin_size := [0], num_samples := 3,
            bins := [[KeyVal.nan], [KeyVal.nan], [KeyVal.nan]],
            curr_sample := [0], support_samples := 3, kld_samples := 12, zvalue := 0 }) := by
  refine ⟨by decide!, by decide!, by decide!⟩

/-- C8, amended.  In an active state, for a sample of matching dimension:
`update(s)` returns a count `r` such that every run of further consecutive
`update(s)` calls returns `r` each time and leaves the support size (and the
stored count and the support set) as the first call left them, if and only if
the bin of the sample holds no NaN. -/
theorem C8_repeated_sample (s : kld_sampling) (x : List ℚ) (hne : s.bin_size ≠ [])
    (hlen : x.length = s.bin_size.length) :
    KeyVal.nan ∉ curr_bin x s.bin_size ↔
    ∃ r s1, update s x = .ok (r, s1) ∧
      ∀ n : ℕ, ∃ s2, feed s1 (List.replicate n x) = .ok (List.replicate n r, s2) ∧
        s2.support_samples = s1.support_samples ∧ s2.kld_samples = r ∧
        s2.bins = s1.bins := by
  obtain ⟨r, s1, hu⟩ := update_total s x hne hlen
  obtain ⟨hr, _, hb, _⟩ := update_frame s x r s1 hu
  have hmem := update_records_bin s x r s1 hu
  constructor
  · intro hnan
    refine ⟨r, s1, hu, ?_⟩
    intro n
    obtain ⟨s2, hf, h1, h2, h3, _⟩ := feed_old_bins (List.replicate n x) s1
      (by rw [hb]; exact hne)
      (fun y hy => by
        rw [List.eq_of_mem_replicate hy]
        exact ⟨by rw [hb]; exact hlen, (seen_iff _ _).mpr ⟨hmem, by rw [hb]; exact hnan⟩⟩)
    rw [List.length_replicate, ← hr] at hf
    exact ⟨s2, hf, h1, by rw [h2, hr], h3⟩
  · rintro ⟨r', s1', hu', hall⟩ hnan
    rw [hu] at hu'
    injection hu' with hu'
    injection hu' with h1 h2
    subst h1 h2
    obtain ⟨s2, hf, hsup, _, _⟩ := hall 1
    obtain ⟨r2, t, rs1, hu2, hf2, _⟩ := feed_cons_ok s1 x [] _ s2 hf
    simp only [feed] at hf2
    injection hf2 with hf2
    injection hf2 with _ ht
    subst ht
    obtain ⟨_, _, hc⟩ := update_cases s1 x r2 t hu2
    rcases hc with ⟨hseen, _, _⟩ | ⟨_, _, hs⟩
    · rw [hb] at hseen
      exact ((seen_iff _ _).mp hseen).2 hnan
    · subst hs
      have : s1.support_samples + 1 = s1.support_samples := hsup
      omega

theorem C8_repeated_sample_witness :
    ∃ r s1, update three_bins [35 / 100] = .ok (r, s1) ∧
      ∀ n : ℕ, ∃ s2, feed s1 (List.replicate n [35 / 100]) = .ok (List.replicate n r, s2) ∧
        s2.support_samples = s1.support_samples ∧ s2.kld_samples = r ∧
        s2.bins = s1.bins :=
  (C8_repeated_sample three_bins [35 / 100] (by decide) (by decide)).mp (by decide!)

/-- C9, counterexample.  After `init(0.5, 1/16, [0], 10)` on the table `[0]` the
three samples `[0]` all have the bin `[NaN]`, the same sequence each time, yet
the third `update` returns 12, above the initial minimum 10, and the support
size ends at 3. -/
theorem C9_counterexample :
    (∀ x ∈ List.replicate 3 ([0] : List ℚ), curr_bin x [0] = [KeyVal.nan]) ∧
    feed (init (fresh 0 0 0 0 0 0) [0] (1 / 2) (1 / 16) [0] 10) (List.replicate 3 [0])
      = .ok ([10, 10, 12],
          { confidence := 0, max_error := 1 / 16, bin_size := [0], num_samples := 3,
            bins := [[KeyVal.nan], [KeyVal.nan], [KeyVal.nan]],
            curr_sample := [0], support_samples := 3, kld_samples := 12, zvalue := 0 }) ∧
    max (10 : ℤ) 10 = 10 := by
  refine ⟨by decide!, by decide!, by decide⟩

/-- C9, amended.  After `init` with a non-empty bin-width vector, for a
non-empty sequence of samples of matching dimension that all have the same bin
`key`: every `update` returns the initial minimum `max(sample_min, 10)` and the
support size ends at 1 (the support set being `[key]`), if and only if `key`
holds no NaN or the sequence has one sample only. -/
theorem C9_degenerate_distribution (s0 : kld_sampling) (ztable : List ℚ)
    (quantile err : ℚ) (bsz : List ℚ) (sample_min : ℤ) (samples : List (List ℚ))
    (key : List KeyVal) (hbsz : bsz ≠ []) (hsamples : samples ≠ [])
    (hall : ∀ x ∈ samples, x.length = bsz.length ∧ curr_bin x bsz = key) :
    (KeyVal.nan ∉ key ∨ samples.length = 1) ↔
    ∃ s, feed (init s0 ztable quantile err bsz sample_min) samples
        = .ok (List.replicate samples.length (max sample_min 10), s) ∧
      s.support_samples = 1 ∧ s.kld_samples = max sample_min 10 ∧ s.bins = [key] := by
  cases samples with
  | nil => exact absurd rfl hsamples
  | cons x xs =>
    obtain ⟨hlen, hkey⟩ := hall x (List.mem_cons_self x xs)
    have hinit := init_kld_samples s0 ztable quantile err bsz sample_min
    have hu := update_new_bin (init s0 ztable quantile err bsz sample_min) x hbsz hlen
      (by simp [init, seen])
    have hr : ratchet (init s0 ztable quantile err bsz sample_min) = max sample_min 10 := by
      rw [← hinit]
      unfold ratchet
      rw [if_neg]
      intro hc
      have : (init s0 ztable quantile err bsz sample_min).support_samples = 0 := rfl
      omega
    rw [hr] at hu
    constructor
    · intro hnan
      have hold : ∀ y ∈ xs, y.length = bsz.length ∧
          seen (curr_bin y bsz) ([] ++ [curr_bin x bsz]) = true := by
        intro y hy
        obtain ⟨hly, hky⟩ := hall y (List.mem_cons_of_mem x hy)
        refine ⟨hly, ?_⟩
        rcases hnan with hnan | hone
        · rw [seen_iff, hky, hkey]
          exact ⟨by simp, hnan⟩
        · simp only [List.length_cons, add_left_eq_self, List.length_eq_zero] at hone
          rw [hone] at hy
          exact absurd hy (List.not_mem_nil y)
      obtain ⟨s2, hf, h1, h2, h3, _⟩ := feed_old_bins xs
        { init s0 ztable quantile err bsz sample_min with
          curr_sample := x
          num_samples := (init s0 ztable quantile err bsz sample_min).num_samples + 1
          bins := (init s0 ztable quantile err bsz sample_min).bins
            ++ [curr_bin x (init s0 ztable quantile err bsz sample_min).bin_size]
          support_samples := (init s0 ztable quantile err bsz sample_min).support_samples + 1
          kld_samples := max sample_min 10 } hbsz hold
      refine ⟨s2, ?_, h1, h2, ?_⟩
      · simp only [feed, hu, hf, List.length_cons, List.replicate_succ]
      · rw [h3]
        show ([] : List (List KeyVal)) ++ [curr_bin x bsz] = [key]
        rw [hkey]
        rfl
    · rintro ⟨s, hf, hsup, _, _⟩
      by_contra hcon
      push_neg at hcon
      obtain ⟨hnan, hlen2⟩ := hcon
      cases xs with
      | nil => exact hlen2 rfl
      | cons y ys =>
        obtain ⟨hly, hky⟩ := hall y (List.mem_cons_of_mem x (List.mem_cons_self y ys))
        obtain ⟨r1, t1, rs1, hu1, hf1, _⟩ := feed_cons_ok _ x (y :: ys) _ s hf
        rw [hu] at hu1
        injection hu1 with hu1
        injection hu1 with _ ht1
        subst ht1
        obtain ⟨r2, t2, rs2, hu2, hf2, _⟩ := feed_cons_ok _ y ys _ s hf1
        have hle := feed_support_le ys t2 rs2 s hf2
        obtain ⟨_, _, hc⟩ := update_cases _ y r2 t2 hu2
        rcases hc with ⟨hseen, _, _⟩ | ⟨_, _, hs⟩
        · have h2 := ((seen_iff _ _).mp hseen).2
          have h3 : curr_bin y bsz = key := hky
          exact h2 (by
            show KeyVal.nan ∈ curr_bin y bsz
            rw [h3]
            exact hnan)
        · subst hs
          have h4 : (0 : ℤ) + 1 + 1 ≤ s.support_samples := hle
          omega

theorem C9_degenerate_distribution_witness :
    ∃ s, feed (init (fresh 0 0 0 0 0 0) [0] (1 / 2) (1 / 10) [1 / 10] 3)
          [[11 / 100], [15 / 100], [19 / 100]]
        = .ok (List.replicate [[11 / 100], [15 / 100], [19 / 100]].length (max (3 : ℤ) 10), s) ∧
      s.support_samples = 1 ∧ s.kld_samples = max (3 : ℤ) 10 ∧ s.bins = [[KeyVal.fin 1]] :=
  (C9_degenerate_distribution (fresh 0 0 0 0 0 0) [0] (1 / 2) (1 / 10) [1 / 10] 3
    [[11 / 100], [15 / 100], [19 / 100]] [KeyVal.fin 1] (by decide) (by decide)
    (by decide!)).mp (Or.inl (by decide))

/-- The candidate of line 91 at `k = 1`, `z = 0` and `max_error = 0.1`, the
latter as the rational `1/10` or as the binary32 value `13421773/2^27` next to
it, is 3. -/
theorem kld_candidate_one (err : ℚ) (herr : err = 1 / 10 ∨ err = 13421773 / 134217728) :
    kld_candidate 1 err 0 = 3 := by
  rcases herr with h | h <;> subst h <;> decide!

/-- The members of the object after `update` met a new bin. -/
theorem update_new_bin_fields (s : kld_sampling) (x : List ℚ) (hne : s.bin_size ≠ [])
    (hlen : x.length = s.bin_size.length) (hnew : seen (curr_bin x s.bin_size) s.bins = false) :
    ∃ s', update s x = .ok (ratchet s, s') ∧ s'.bin_size = s.bin_size ∧
      s'.bins = s.bins ++ [curr_bin x s.bin_size] ∧
      s'.support_samples = s.support_samples + 1 ∧ s'.kld_samples = ratchet s ∧
      s'.zvalue = s.zvalue ∧ s'.max_error = s.max_error :=
  ⟨_, update_new_bin s x hne hlen hnew, rfl, rfl, rfl, rfl, rfl, rfl⟩

/-- With quantile 0.5 and a table whose first entry is `>= 0`, `init` resolves
the z-value 0. -/
theorem init_scenario_zvalue (s0 : kld_sampling) (t : ℚ) (rest : List ℚ) (ht : 0 ≤ t)
    (err : ℚ) (bsz : List ℚ) (sample_min : ℤ) :
    (init s0 (t :: rest) (1 / 2) err bsz sample_min).zvalue = 0 := by
  have hc : clamp_confidence (1 / 2) = 0 := by
    unfold clamp_confidence; norm_num
  show zscan (clamp_confidence (1 / 2)) (t :: rest) 0 = 0
  rw [hc]
  simp only [zscan, ge_iff_le, ht, if_true]
  norm_num

/-- C10, counterexample.  After `init(0.5, 0.1, [0.1], 10)` on the table `[0]`
the samples 0.05 and 0.15 have the distinct bins 0 and 1, and the `update`
that sees the second bin returns 10, which is not greater than 10.  The same
holds with `0.1` as the binary32 value `13421773/2^27` and the binary32
samples `1/16` and `3/16`. -/
theorem C10_counterexample :
    curr_bin [5 / 100] [1 / 10] ≠ curr_bin [15 / 100] [1 / 10] ∧
    (∃ s1 s2, update (init (fresh 0 0 0 0 0 0) [0] (1 / 2) (1 / 10) [1 / 10] 10) [5 / 100]
        = .ok (10, s1) ∧ update s1 [15 / 100] = .ok (10, s2) ∧ s2.support_samples = 2) ∧
    ¬ (∀ r s, feed (init (fresh 0 0 0 0 0 0) [0] (1 / 2) (1 / 10) [1 / 10] 10)
          [[5 / 100], [15 / 100]] = .ok (r, s) → ∀ c, r[1]? = some c → 10 < c) ∧
    curr_bin [1 / 16] [13421773 / 134217728] ≠ curr_bin [3 / 16] [13421773 / 134217728] ∧
    feed (init (fresh 0 0 0 0 0 0) [0] (1 / 2) (13421773 / 134217728)
          [13421773 / 134217728] 10) [[1 / 16], [3 / 16]]
      = .ok ([10, 10],
          { confidence := 0, max_error := 13421773 / 134217728,
            bin_size := [13421773 / 134217728], num_samples := 2,
            bins := [[KeyVal.fin 0], [KeyVal.fin 1]], curr_sample := [3 / 16],
            support_samples := 2, kld_samples := 10, zvalue := 0 }) := by
  refine ⟨by decide!, ⟨one_bin, two_bins, by decide!, by decide!, rfl⟩, ?_, by decide!,
    by decide!⟩
  intro h
  have hrun : feed (init (fresh 0 0 0 0 0 0) [0] (1 / 2) (1 / 10) [1 / 10] 10)
      [[5 / 100], [15 / 100]] = .ok ([10, 10], two_bins) := by decide!
  have := h _ _ hrun 10 rfl
  omega

/-- C10, amended.  After `init(0.5, 0.1, [w], 10)` on a table whose first
entry is `>= 0` (with `0.1` the rational `1/10` or the binary32 value
`13421773/2^27`, and any bin width `w`, `0.1` among them), feeding
one-dimensional samples of which the first two have distinct bins, the
`update` that sees the second distinct bin returns exactly 10 (the candidate at
`k = 1` is 3, below the stored minimum), with the support size 2 after it. -/
theorem C10_second_bin_count (s0 : kld_sampling) (t : ℚ) (rest : List ℚ) (ht : 0 ≤ t)
    (err w : ℚ) (herr : err = 1 / 10 ∨ err = 13421773 / 134217728)
    (x1 x2 : ℚ) (hdist : curr_bin [x1] [w] ≠ curr_bin [x2] [w]) :
    ∃ s1 s2, update (init s0 (t :: rest) (1 / 2) err [w] 10) [x1] = .ok (10, s1) ∧
      update s1 [x2] = .ok (10, s2) ∧ s1.support_samples = 1 ∧ s2.support_samples = 2 ∧
      s2.zvalue = 0 := by
  have hz := init_scenario_zvalue s0 t rest ht err [w] 10
  have hk := init_kld_samples s0 (t :: rest) (1 / 2) err [w] 10
  have hk10 : (init s0 (t :: rest) (1 / 2) err [w] 10).kld_samples = 10 := by
    rw [hk]; rfl
  obtain ⟨s1, hu1, hb1, hbins1, hsup1, hkld1, hz1, he1⟩ :=
    update_new_bin_fields (init s0 (t :: rest) (1 / 2) err [w] 10) [x1]
      (by simp [init]) (by simp [init]) (by simp [init, seen])
  have hr1 : ratchet (init s0 (t :: rest) (1 / 2) err [w] 10) = 10 := by
    unfold ratchet
    rw [if_neg, hk10]
    intro hc
    have h0 : (init s0 (t :: rest) (1 / 2) err [w] 10).support_samples = 0 := rfl
    have := hc.1
    omega
  rw [hr1] at hu1 hkld1
  have hb1' : s1.bin_size = [w] := hb1
  have hbins1' : s1.bins = [curr_bin [x1] [w]] := hbins1
  have hsup1' : s1.support_samples = 1 := hsup1
  obtain ⟨s2, hu2, _, _, hsup2, _, hz2, _⟩ :=
    update_new_bin_fields s1 [x2] (by rw [hb1']; simp) (by rw [hb1']; simp)
      (by
        rw [hb1', hbins1']
        apply seen_eq_false_of_not_mem
        intro hmem
        exact hdist (List.mem_singleton.mp hmem).symm)
  have hr2 : ratchet s1 = 10 := by
    unfold ratchet
    have hk1 : s1.support_samples + 1 - 1 = 1 := by omega
    have he : s1.max_error = err := he1
    rw [hk1, he, hz1, hz, kld_candidate_one err herr, hkld1, if_neg]
    intro hc
    have := hc.2
    omega
  rw [hr2] at hu2
  exact ⟨s1, s2, hu1, hu2, hsup1', by omega, by rw [hz2, hz1, hz]⟩

theorem C10_second_bin_count_witness :
    ∃ s1 s2, update (init (fresh 0 0 0 0 0 0) ([0] ++ [1 / 10]) (1 / 2) (1 / 10) [1 / 10] 10)
        [5 / 100] = .ok (10, s1) ∧
      update s1 [15 / 100] = .ok (10, s2) ∧ s1.support_samples = 1 ∧ s2.support_samples = 2 ∧
      s2.zvalue = 0 :=
  C10_second_bin_count (fresh 0 0 0 0 0 0) 0 [1 / 10] (by norm_num) (1 / 10) (1 / 10)
    (Or.inl rfl) (5 / 100) (15 / 100) (by decide!)

/-- C13 (`update` before `init` is fatal).  On an object as the constructor
leaves it (empty `bin_size`, whatever the indeterminate scalar members hold),
`update` takes the "Must run init() before update()" exit for every sample of
every length and returns no count. -/
theorem C13_update_before_init (f1 f2 f3 : ℚ) (i1 i2 i3 : ℤ) (x : List ℚ) :
    update (fresh f1 f2 f3 i1 i2 i3) x = .error Fatal.must_run_init ∧
    ¬ ∃ r s', update (fresh f1 f2 f3 i1 i2 i3) x = .ok (r, s') := by
  have h : update (fresh f1 f2 f3 i1 i2 i3) x = .error Fatal.must_run_init := by
    simp [update, fresh]
  refine ⟨h, ?_⟩
  rintro ⟨r, s', hok⟩
  rw [h] at hok
  cases hok

/-- C14 (dimension mismatch is always fatal).  In every state, a sample whose
length differs from the length of `bin_size` makes `update` take a fatal exit
(the dimension exit when `bin_size` is not empty, the "must run init" exit
when it is empty) and return no count; both exits precede the first write to
a member (lines 74-82 precede lines 84-85), so the result carries no changed
object. -/
theorem C14_dimension_mismatch_fatal (s : kld_sampling) (x : List ℚ)
    (hdim : x.length ≠ s.bin_size.length) :
    update s x
      = .error (if s.bin_size = [] then Fatal.must_run_init else Fatal.dimension_mismatch) ∧
    ¬ ∃ r s', update s x = .ok (r, s') := by
  have h : update s x
      = .error (if s.bin_size = [] then Fatal.must_run_init
          else Fatal.dimension_mismatch) := by
    by_cases hb : s.bin_size = []
    · simp [update, hb]
    · simp [update, hb, hdim]
  refine ⟨h, ?_⟩
  rintro ⟨r, s', hok⟩
  rw [h] at hok
  cases hok

theorem C14_dimension_mismatch_fatal_witness :
    update three_bins [1 / 10, 2 / 10] = .error Fatal.dimension_mismatch :=
  (C14_dimension_mismatch_fatal three_bins [1 / 10, 2 / 10] (by decide)).1

/-- C15, counterexample.  After `init` with the empty bin-width vector
(length `d = 0`) the sample of length 0 makes `update` fail with the
"must run init" exit. -/
theorem C15_counterexample :
    ([] : List ℚ).length = ([] : List ℚ).length ∧
    update (init (fresh 0 0 0 0 0 0) [0] (1 / 2) (1 / 10) [] 10) []
      = .error Fatal.must_run_init := by
  refine ⟨rfl, ?_⟩
  simp [update, init]

/-- C15, amended.  After `init` with a non-empty bin-width vector of length
`d >= 1`, in every state of the round, `update` with a sample of length `d`
does not fail: it increments `num_samples` by exactly one and returns the
stored count; and in such a state `update` fails if and only if the sample
length differs from `d`. -/
theorem C15_update_valid_when_active (s0 : kld_sampling) (ztable : List ℚ)
    (quantile err : ℚ) (bsz : List ℚ) (sample_min : ℤ) (samples : List (List ℚ))
    (rs : List ℤ) (s : kld_sampling) (x : List ℚ) (hbsz : bsz ≠ [])
    (hrun : feed (init s0 ztable quantile err bsz sample_min) samples = .ok (rs, s)) :
    (x.length = bsz.length →
      ∃ s', update s x = .ok (s'.kld_samples, s') ∧ s'.num_samples = s.num_samples + 1) ∧
    ((∃ e, update s x = .error e) ↔ x.length ≠ bsz.length) := by
  have hb : s.bin_size = bsz := (feed_frame samples _ rs s hrun).1
  constructor
  · intro hlen
    obtain ⟨r, s', hu⟩ := update_total s x (by rw [hb]; exact hbsz) (by rw [hb]; exact hlen)
    obtain ⟨hr, _, _, _, _, hn⟩ := update_frame s x r s' hu
    exact ⟨s', by rw [← hr]; exact hu, hn⟩
  · rw [update_error_iff, hb]
    constructor
    · rintro (h | h)
      · exact absurd h hbsz
      · exact h
    · intro h
      exact Or.inr h

theorem C15_update_valid_when_active_witness :
    ∃ s', update three_bins [35 / 100] = .ok (s'.kld_samples, s') ∧
      s'.num_samples = three_bins.num_samples + 1 :=
  (C15_update_valid_when_active (fresh 0 0 0 0 0 0) [0] (1 / 2) (1 / 10) [1 / 10] 10
    [[5 / 100], [15 / 100], [25 / 100]] [10, 10, 10] three_bins [35 / 100] (by decide)
    (by decide!)).1 (by decide)

/-- C17 (support only grows).  A successful `update` leaves the support size
unchanged or larger by exactly one, keeps every bin key of the support set in
it, and so does every run of successful `update` calls. -/
theorem C17_support_only_grows (s : kld_sampling) (x : List ℚ) (r : ℤ) (s' : kld_sampling)
    (hu : update s x = .ok (r, s')) :
    (s'.support_samples = s.support_samples ∨ s'.support_samples = s.support_samples + 1) ∧
    (∀ b ∈ s.bins, b ∈ s'.bins) ∧
    (∀ xs rs s2, feed s' xs = .ok (rs, s2) →
      s.support_samples ≤ s2.support_samples ∧ ∀ b ∈ s.bins, b ∈ s2.bins) := by
  have step : ∀ (a : kld_sampling) (y : List ℚ) (c : ℤ) (a' : kld_sampling),
      update a y = .ok (c, a') →
      (a'.support_samples = a.support_samples ∨ a'.support_samples = a.support_samples + 1) ∧
      (∀ b ∈ a.bins, b ∈ a'.bins) := by
    intro a y c a' h
    obtain ⟨_, _, hc⟩ := update_cases a y c a' h
    rcases hc with ⟨_, _, hs⟩ | ⟨_, _, hs⟩
    · subst hs
      exact ⟨Or.inl rfl, fun b hb => hb⟩
    · subst hs
      exact ⟨Or.inr rfl, fun b hb => List.mem_append_left _ hb⟩
  have run : ∀ (xs : List (List ℚ)) (a : kld_sampling) (rs : List ℤ) (a2 : kld_sampling),
      feed a xs = .ok (rs, a2) →
      a.support_samples ≤ a2.support_samples ∧ ∀ b ∈ a.bins, b ∈ a2.bins := by
    intro xs
    induction xs with
    | nil =>
      intro a rs a2 h
      simp only [feed] at h
      injection h with h
      injection h with _ h2
      subst h2
      exact ⟨le_refl _, fun b hb => hb⟩
    | cons y ys ih =>
      intro a rs a2 h
      obtain ⟨c, a1, rs1, hu1, hf1, _⟩ := feed_cons_ok a y ys rs a2 h
      obtain ⟨h1, h2⟩ := step a y c a1 hu1
      obtain ⟨h3, h4⟩ := ih a1 rs1 a2 hf1
      refine ⟨?_, fun b hb => h4 b (h2 b hb)⟩
      rcases h1 with h1 | h1 <;> omega
  obtain ⟨h1, h2⟩ := step s x r s' hu
  refine ⟨h1, h2, ?_⟩
  intro xs rs s2 hf
  obtain ⟨h3, h4⟩ := run xs s' rs s2 hf
  refine ⟨?_, fun b hb => h4 b (h2 b hb)⟩
  rcases h1 with h1 | h1 <;> omega

theorem C17_support_only_grows_witness :
    (two_bins.support_samples = one_bin.support_samples ∨
      two_bins.support_samples = one_bin.support_samples + 1) ∧
    (∀ b ∈ one_bin.bins, b ∈ two_bins.bins) ∧
    (∀ xs rs s2, feed two_bins xs = .ok (rs, s2) →
      one_bin.support_samples ≤ s2.support_samples ∧ ∀ b ∈ one_bin.bins, b ∈ s2.bins) :=
  C17_support_only_grows one_bin [15 / 100] 10 two_bins (by decide!)

/-- The member `curr_sample` is overwritten by `update` before it is read. -/
theorem update_curr_sample (s : kld_sampling) (c x : List ℚ) :
    update { s with curr_sample := c } x = update s x := rfl

/-- Objects that differ in `curr_sample` only give the same run. -/
theorem feed_curr_sample (s : kld_sampling) (c : List ℚ) (xs : List (List ℚ)) :
    (feed { s with curr_sample := c } xs).map Prod.fst = (feed s xs).map Prod.fst := by
  cases xs with
  | nil => rfl
  | cons x xs =>
    simp only [feed]
    rw [update_curr_sample s c x]

/-- C12 (`init` discards the previous round).  Whatever the object held before,
after `init` the support size and `num_samples` are 0, the support set is
empty, the stored count is `max(sample_min, 10)`, and `max_error` and
`bin_size` are the arguments; two objects with different histories that
receive the same `init` arguments and then the same samples give the same
outcome at every `update` (the same counts, or the same fatal exit). -/
theorem C12_init_discards_previous_round (s0 s0' : kld_sampling) (ztable : List ℚ)
    (quantile err : ℚ) (bsz : List ℚ) (sample_min : ℤ) (samples : List (List ℚ)) :
    (init s0 ztable quantile err bsz sample_min).support_samples = 0 ∧
    (init s0 ztable quantile err bsz sample_min).num_samples = 0 ∧
    (init s0 ztable quantile err bsz sample_min).bins = [] ∧
    (init s0 ztable quantile err bsz sample_min).kld_samples = max sample_min 10 ∧
    (init s0 ztable quantile err bsz sample_min).max_error = err ∧
    (init s0 ztable quantile err bsz sample_min).bin_size = bsz ∧
    (feed (init s0 ztable quantile err bsz sample_min) samples).map Prod.fst
      = (feed (init s0' ztable quantile err bsz sample_min) samples).map Prod.fst := by
  refine ⟨rfl, rfl, rfl, init_kld_samples s0 ztable quantile err bsz sample_min, rfl, rfl, ?_⟩
  have h : init s0 ztable quantile err bsz sample_min
      = { init s0' ztable quantile err bsz sample_min with curr_sample := s0.curr_sample } := rfl
  rw [h]
  exact feed_curr_sample _ _ samples

theorem has_nan_iff (b : List KeyVal) : has_nan b = true ↔ KeyVal.nan ∈ b := by
  simp [has_nan]

/-- A list has no duplicate exactly when neither its part with a property nor
its part without has one. -/
theorem nodup_iff_filter (p : List KeyVal → Bool) (l : List (List KeyVal)) :
    l.Nodup ↔ (l.filter p).Nodup ∧ (l.filter (fun b => !p b)).Nodup := by
  rw [← (List.filter_append_perm p l).nodup_iff, List.nodup_append]
  constructor
  · rintro ⟨h1, h2, _⟩
    exact ⟨h1, h2⟩
  · rintro ⟨h1, h2⟩
    refine ⟨h1, h2, ?_⟩
    intro b hb1 hb2
    have h3 := (List.mem_filter.mp hb1).2
    have h4 := (List.mem_filter.mp hb2).2
    simp [h3] at h4

/-- What a run of successful `update` calls does to the support set: the bins
with a NaN are appended at every occurrence, the other stored bins stay free
of duplicates, the stored bins are the old ones and those of the samples fed,
and the length of the support set and the support size grow together, as do
`num_samples` and the number of samples fed. -/
theorem feed_bins (xs : List (List ℚ)) : ∀ (s : kld_sampling) (rs : List ℤ)
    (s' : kld_sampling), feed s xs = .ok (rs, s') →
    s'.bins.filter (fun b => has_nan b)
      = s.bins.filter (fun b => has_nan b)
        ++ (xs.map (fun x => curr_bin x s.bin_size)).filter (fun b => has_nan b) ∧
    ((s.bins.filter (fun b => !has_nan b)).Nodup →
      (s'.bins.filter (fun b => !has_nan b)).Nodup) ∧
    (∀ b, b ∈ s'.bins ↔ b ∈ s.bins ∨ b ∈ xs.map (fun x => curr_bin x s.bin_size)) ∧
    (s'.bins.length : ℤ) - s'.support_samples = (s.bins.length : ℤ) - s.support_samples ∧
    s'.num_samples = s.num_samples + xs.length := by
  induction xs with
  | nil =>
    intro s rs s' h
    simp only [feed] at h
    injection h with h
    injection h with _ h2
    subst h2
    simp
  | cons x xs ih =>
    intro s rs s' h
    obtain ⟨r, s1, rs1, hu, hf, _⟩ := feed_cons_ok s x xs rs s' h
    obtain ⟨_, _, hc⟩ := update_cases s x r s1 hu
    rcases hc with ⟨hseen, _, hs⟩ | ⟨hnew, _, hs⟩
    · subst hs
      obtain ⟨hmem, hclean⟩ := (seen_iff _ _).mp hseen
      obtain ⟨h1, h2, h3, h4, h5⟩ := ih _ rs1 s' hf
      have hn : has_nan (curr_bin x s.bin_size) = false := by
        rw [← Bool.not_eq_true, has_nan_iff]
        exact hclean
      refine ⟨?_, h2, ?_, h4, ?_⟩
      · rw [h1]
        simp only [List.map_cons, List.filter_cons, hn]
        rfl
      · intro b
        rw [h3 b]
        simp only [List.map_cons, List.mem_cons]
        constructor
        · rintro (hb | hb)
          · exact Or.inl hb
          · exact Or.inr (Or.inr hb)
        · rintro (hb | hb | hb)
          · exact Or.inl hb
          · exact Or.inl (hb ▸ hmem)
          · exact Or.inr hb
      · rw [h5]
        simp only [List.length_cons]
        push_cast
        ring
    · subst hs
      obtain ⟨h1, h2, h3, h4, h5⟩ := ih _ rs1 s' hf
      refine ⟨?_, ?_, ?_, ?_, ?_⟩
      · rw [h1]
        simp only [List.map_cons, List.filter_append, List.filter_cons, List.filter_nil]
        by_cases hn : has_nan (curr_bin x s.bin_size) = true
        · simp [hn]
        · simp [hn]
      · intro hnd
        apply h2
        show ((s.bins ++ [curr_bin x s.bin_size]).filter (fun b => !has_nan b)).Nodup
        rw [List.filter_append]
        by_cases hn : has_nan (curr_bin x s.bin_size) = true
        · simp only [List.filter_cons, hn, List.filter_nil, Bool.not_true, Bool.false_eq_true,
            if_false, List.append_nil]
          exact hnd
        · have hnot : curr_bin x s.bin_size ∉ s.bins := by
            intro hm
            have := (seen_iff _ _).mpr ⟨hm, fun hc => hn ((has_nan_iff _).mpr hc)⟩
            rw [hnew] at this
            cases this
          simp only [List.filter_cons, hn, List.filter_nil]
          rw [List.nodup_append]
          refine ⟨hnd, by simp, ?_⟩
          intro b hb1 hb2
          simp only [Bool.not_false, if_true, List.mem_singleton] at hb2
          subst hb2
          exact hnot (List.mem_filter.mp hb1).1
      · intro b
        rw [h3 b]
        simp only [List.map_cons, List.mem_cons, List.mem_append, List.not_mem_nil, or_false]
        tauto
      · rw [h4]
        simp only [List.length_append, List.length_singleton]
        push_cast
        ring
      · rw [h5]
        simp only [List.length_cons]
        push_cast
        ring

/-- Support set and counters after a successful run from `init`, in terms of
the bins of the samples fed. -/
theorem feed_init_bins (s0 : kld_sampling) (ztable : List ℚ) (quantile err : ℚ)
    (bsz : List ℚ) (sample_min : ℤ) (xs : List (List ℚ)) (rs : List ℤ) (s : kld_sampling)
    (hrun : feed (init s0 ztable quantile err bsz sample_min) xs = .ok (rs, s)) :
    (s.bins.Nodup ↔ ((xs.map (fun x => curr_bin x bsz)).filter (fun b => has_nan b)).Nodup) ∧
    (∀ b, b ∈ s.bins ↔ b ∈ xs.map (fun x => curr_bin x bsz)) ∧
    (s.bins.length : ℤ) = s.support_samples ∧
    s.num_samples = (xs.length : ℤ) ∧
    s.support_samples = (support_count (xs.map (fun x => curr_bin x bsz)) : ℤ) ∧
    (s.bins.Nodup
      ↔ s.support_samples = ((xs.map (fun x => curr_bin x bsz)).toFinset.card : ℤ)) ∧
    support_count (xs.map (fun x => curr_bin x bsz)) ≤ xs.length := by
  obtain ⟨h1, h2, h3, h4, h5⟩ := feed_bins xs _ rs s hrun
  have hdirty : s.bins.filter (fun b => has_nan b)
      = (xs.map (fun x => curr_bin x bsz)).filter (fun b => has_nan b) := by
    rw [h1]
    rfl
  have hnd : (s.bins.filter (fun b => !has_nan b)).Nodup := h2 List.nodup_nil
  have hmem : ∀ b, b ∈ s.bins ↔ b ∈ xs.map (fun x => curr_bin x bsz) := by
    intro b
    rw [h3 b]
    constructor
    · rintro (hb | hb)
      · exact absurd hb (List.not_mem_nil b)
      · exact hb
    · intro hb
      exact Or.inr hb
  have hlen : (s.bins.length : ℤ) = s.support_samples := by
    have : (s.bins.length : ℤ) - s.support_samples = ((0 : ℕ) : ℤ) - 0 := h4
    omega
  have hnum : s.num_samples = (xs.length : ℤ) := by
    rw [h5]
    show (0 : ℤ) + _ = _
    simp
  refine ⟨?_, hmem, hlen, hnum, ?_, ?_, ?_⟩
  · rw [nodup_iff_filter (fun b => has_nan b), hdirty]
    exact ⟨fun h => h.1, fun h => ⟨h, hnd⟩⟩
  rotate_left
  · have hfin : s.bins.toFinset = (xs.map (fun x => curr_bin x bsz)).toFinset := by
      ext b
      simp only [List.mem_toFinset]
      exact hmem b
    rw [← hfin, ← hlen]
    constructor
    · intro h
      rw [List.toFinset_card_of_nodup h]
    · intro h
      have h1 : s.bins.dedup.length = s.bins.length := by
        rw [← List.card_toFinset]
        exact_mod_cast h.symm
      exact List.dedup_eq_self.mp ((List.dedup_sublist s.bins).eq_of_length h1)
  · have h1 := @List.length_eq_length_filter_add _ (xs.map (fun x => curr_bin x bsz))
      (fun b => has_nan b)
    have h2 := (List.dedup_sublist
      ((xs.map (fun x => curr_bin x bsz)).filter (fun b => !has_nan b))).length_le
    rw [List.length_map] at h1
    unfold support_count
    omega
  · have hfin : (s.bins.filter (fun b => !has_nan b)).toFinset
        = ((xs.map (fun x => curr_bin x bsz)).filter (fun b => !has_nan b)).toFinset := by
      ext b
      simp only [List.mem_toFinset, List.mem_filter, hmem b]
    have hclean : (s.bins.filter (fun b => !has_nan b)).length
        = ((xs.map (fun x => curr_bin x bsz)).filter (fun b => !has_nan b)).dedup.length := by
      rw [← List.toFinset_card_of_nodup hnd, hfin, List.card_toFinset]
    have hsplit := @List.length_eq_length_filter_add _ s.bins (fun b => has_nan b)
    rw [← hlen, hsplit, hdirty, hclean]
    simp [support_count]

/-- C18, counterexample.  (1) With the bin width 0 the two samples `[0]` have
the one bin `[NaN]`, which `==` finds equal to nothing: after
`init(0.5, 1/16, [0], 10)` and the two `update` calls the support set holds
that bin twice and the support size is 2, while the number of distinct bins is
1.  (2) The bin is the floor of the binary32 quotient: for the `float` samples
0.65 and 0.7 (`10905190/2^24`, `11744051/2^24`) and the `float` width 0.1
(`13421773/2^27`) the floors of the exact quotients are both 6, yet the
quotient of the second rounds to 7.0, and the support size is 2. -/
theorem C18_counterexample :
    feed (init (fresh 0 0 0 0 0 0) [0] (1 / 2) (1 / 16) [0] 10) [[0], [0]]
      = .ok ([10, 10],
          { confidence := 0, max_error := 1 / 16, bin_size := [0], num_samples := 2,
            bins := [[KeyVal.nan], [KeyVal.nan]], curr_sample := [0], support_samples := 2,
            kld_samples := 10, zvalue := 0 }) ∧
    ¬ ([[KeyVal.nan], [KeyVal.nan]] : List (List KeyVal)).Nodup ∧
    (([[0], [0]] : List (List ℚ)).map (fun x => curr_bin x [0])).dedup.length = 1 ∧
    Int.floor ((10905190 / 16777216 : ℚ) / (13421773 / 134217728)) = 6 ∧
    Int.floor ((11744051 / 16777216 : ℚ) / (13421773 / 134217728)) = 6 ∧
    feed (init (fresh 0 0 0 0 0 0) [0] (1 / 2) (13421773 / 134217728)
          [13421773 / 134217728] 10) [[10905190 / 16777216], [11744051 / 16777216]]
      = .ok ([10, 10],
          { confidence := 0, max_error := 13421773 / 134217728,
            bin_size := [13421773 / 134217728], num_samples := 2,
            bins := [[KeyVal.fin 6], [KeyVal.fin 7]], curr_sample := [11744051 / 16777216],
            support_samples := 2, kld_samples := 10, zvalue := 0 }) := by
  refine ⟨by decide!, by decide, by decide!, by decide!, by decide!, by decide!⟩

/-- C18, amended.  With the bin of a sample as line 130 computes it (the floor
of the binary32 quotient in every dimension, compared as whole sequences by
`==`), in every state reached by `init` followed by successful `update` calls:
the length of the support set is the support size; its members are exactly the
bins of the samples fed since `init`; `num_samples` is the number of samples
fed and the support size is at most that; the support size counts every sample
whose bin holds a NaN and every distinct bin among the others.  The support
set is free of duplicates, and the support size is the number of distinct
bins, exactly when no bin that holds a NaN occurs twice among the samples. -/
theorem C18_support_counts_distinct_bins (s0 : kld_sampling) (ztable : List ℚ)
    (quantile err : ℚ) (bsz : List ℚ) (sample_min : ℤ) (samples : List (List ℚ))
    (rs : List ℤ) (s : kld_sampling)
    (hrun : feed (init s0 ztable quantile err bsz sample_min) samples = .ok (rs, s)) :
    (s.bins.length : ℤ) = s.support_samples ∧
    (∀ b, b ∈ s.bins ↔ ∃ x ∈ samples, curr_bin x bsz = b) ∧
    s.num_samples = (samples.length : ℤ) ∧
    s.support_samples ≤ s.num_samples ∧
    s.support_samples = (support_count (samples.map (fun x => curr_bin x bsz)) : ℤ) ∧
    (((samples.map (fun x => curr_bin x bsz)).filter (fun b => has_nan b)).Nodup
      ↔ s.bins.Nodup) ∧
    (((samples.map (fun x => curr_bin x bsz)).filter (fun b => has_nan b)).Nodup
      ↔ s.support_samples = ((samples.map (fun x => curr_bin x bsz)).toFinset.card : ℤ)) ∧
    (((samples.map (fun x => curr_bin x bsz)).filter (fun b => has_nan b)).Nodup
      ↔ s.support_samples = ((samples.map (fun x => curr_bin x bsz)).dedup.length : ℤ)) := by
  obtain ⟨hnd, hmem, hlen, hnum, hsup, hcard, hle⟩ :=
    feed_init_bins s0 ztable quantile err bsz sample_min samples rs s hrun
  refine ⟨hlen, ?_, hnum, ?_, hsup, hnd.symm, hnd.symm.trans hcard, ?_⟩
  · intro b
    rw [hmem b, List.mem_map]
  · rw [hsup, hnum]
    exact_mod_cast hle
  · rw [← List.card_toFinset]
    exact hnd.symm.trans hcard

theorem C18_support_counts_distinct_bins_witness :
    (3 : ℤ) = ((([[5 / 100], [15 / 100], [7 / 100], [25 / 100]] : List (List ℚ)).map
      (fun x => curr_bin x [1 / 10])).dedup.length : ℤ) :=
  (C18_support_counts_distinct_bins (fresh 0 0 0 0 0 0) [0] (1 / 2) (1 / 10) [1 / 10] 10
    [[5 / 100], [15 / 100], [7 / 100], [25 / 100]] [10, 10, 10, 10]
    { confidence := 0, max_error := 1 / 10, bin_size := [1 / 10], num_samples := 4,
      bins := [[KeyVal.fin 0], [KeyVal.fin 1], [KeyVal.fin 2]], curr_sample := [25 / 100],
      support_samples := 3, kld_samples := 10, zvalue := 0 }
    (by decide!)).2.2.2.2.2.2.2.mp (by decide!)

/-- A property kept by every successful `update` is kept by every run. -/
theorem feed_preserves (P : kld_sampling → Prop)
    (hstep : ∀ s x r s', P s → update s x = .ok (r, s') → P s') (xs : List (List ℚ)) :
    ∀ (s : kld_sampling) (rs : List ℤ) (s' : kld_sampling), P s →
      feed s xs = .ok (rs, s') → P s' := by
  induction xs with
  | nil =>
    intro s rs s' hP h
    simp only [feed] at h
    injection h with h
    injection h with _ h2
    subst h2
    exact hP
  | cons x xs ih =>
    intro s rs s' hP h
    obtain ⟨r, s1, rs1, hu, hf, _⟩ := feed_cons_ok s x xs rs s' h
    exact ih s1 rs1 s' (hstep s x r s1 hP hu) hf

/-- The round invariant is kept by `update`. -/
theorem round_inv_update (base : ℤ) (max_error zvalue : ℚ) (s : kld_sampling) (x : List ℚ)
    (r : ℤ) (s' : kld_sampling) (hinv : round_inv base max_error zvalue s)
    (hu : update s x = .ok (r, s')) : round_inv base max_error zvalue s' := by
  obtain ⟨he, hz, hsup, hk⟩ := hinv
  obtain ⟨_, _, hc⟩ := update_cases s x r s' hu
  rcases hc with ⟨_, _, hs⟩ | ⟨_, _, hs⟩
  · subst hs
    exact ⟨he, hz, hsup, hk⟩
  · subst hs
    refine ⟨he, hz, by show 0 ≤ s.support_samples + 1; omega, ?_⟩
    show ratchet s = ratchet_closed base max_error zvalue (s.support_samples + 1).toNat
    have htn : (s.support_samples + 1).toNat = s.support_samples.toNat + 1 := by omega
    have hcast : ((s.support_samples.toNat : ℕ) : ℤ) = s.support_samples :=
      Int.toNat_of_nonneg hsup
    have hk1 : s.support_samples + 1 - 1 = s.support_samples := by ring
    rw [htn]
    simp only [ratchet_closed, ratchet, hk1, hcast, ← hk, he, hz]
    by_cases h2 : 2 ≤ s.support_samples + 1
    · have h2n : 2 ≤ s.support_samples.toNat + 1 := by omega
      rw [if_pos h2n]
      by_cases h3 : s.kld_samples < kld_candidate s.support_samples max_error zvalue
      · rw [if_pos ⟨h2, h3⟩]
        exact (max_eq_right (le_of_lt h3)).symm
      · rw [if_neg (fun h => h3 h.2)]
        exact (max_eq_left (not_lt.mp h3)).symm
    · have h2n : ¬ 2 ≤ s.support_samples.toNat + 1 := by omega
      rw [if_neg h2n, if_neg (fun h => h2 h.1)]

/-- After `init` the round invariant holds with `base = max(sample_min, 10)`. -/
theorem round_inv_init (s0 : kld_sampling) (ztable : List ℚ) (quantile err : ℚ)
    (bsz : List ℚ) (sample_min : ℤ) :
    round_inv (max sample_min 10) err
      (init s0 ztable quantile err bsz sample_min).zvalue
      (init s0 ztable quantile err bsz sample_min) :=
  ⟨rfl, rfl, le_refl _, init_kld_samples s0 ztable quantile err bsz sample_min⟩

/-- Support size and stored count after a successful run from `init`. -/
theorem feed_init_closed (s0 : kld_sampling) (ztable : List ℚ) (quantile err : ℚ)
    (bsz : List ℚ) (sample_min : ℤ) (xs : List (List ℚ)) (rs : List ℤ) (s : kld_sampling)
    (hrun : feed (init s0 ztable quantile err bsz sample_min) xs = .ok (rs, s)) :
    s.support_samples = (support_count (xs.map (fun x => curr_bin x bsz)) : ℤ) ∧
    s.kld_samples = ratchet_closed (max sample_min 10) err
      (init s0 ztable quantile err bsz sample_min).zvalue
      (support_count (xs.map (fun x => curr_bin x bsz))) := by
  obtain ⟨_, _, _, _, hsup, _⟩ :=
    feed_init_bins s0 ztable quantile err bsz sample_min xs rs s hrun
  obtain ⟨_, _, _, hk⟩ := feed_preserves _
    (round_inv_update (max sample_min 10) err
      (init s0 ztable quantile err bsz sample_min).zvalue) xs _ rs s
    (round_inv_init s0 ztable quantile err bsz sample_min) hrun
  refine ⟨hsup, ?_⟩
  rw [hk, hsup, Int.toNat_ofNat]

/-- The count returned by the last `update` of a non-empty run is the stored
count at the end. -/
theorem feed_getLast (xs : List (List ℚ)) : ∀ (s : kld_sampling) (rs : List ℤ)
    (s' : kld_sampling), feed s xs = .ok (rs, s') → xs ≠ [] →
    rs.getLast? = some s'.kld_samples := by
  induction xs with
  | nil => intro s rs s' _ h; exact absurd rfl h
  | cons x xs ih =>
    intro s rs s' h _
    obtain ⟨r, s1, rs1, hu, hf, hrs⟩ := feed_cons_ok s x xs rs s' h
    subst hrs
    cases xs with
    | nil =>
      simp only [feed] at hf
      injection hf with hf
      injection hf with h1 h2
      subst h1 h2
      rw [(update_frame s x r s1 hu).1]
      rfl
    | cons y ys =>
      have hl := ih s1 rs1 s' hf (List.cons_ne_nil y ys)
      have hne : rs1 ≠ [] := by
        intro h0
        rw [h0] at hl
        cases hl
      obtain ⟨a, l, hal⟩ := List.exists_cons_of_ne_nil hne
      subst hal
      rw [List.getLast?_cons_cons]
      exact hl

/-- In the scenario `z = 0`, minimum 10 and `max_error = 0.1` (the rational
`1/10` or the binary32 value `13421773/2^27`), the stored count at support
size 10, as the machine computes it, is 42. -/
theorem ratchet_closed_scenario (err : ℚ)
    (herr : err = 1 / 10 ∨ err = 13421773 / 134217728) :
    ratchet_closed 10 err 0 10 = 42 := by
  rcases herr with h | h <;> subst h <;> decide!

/-- The expression of line 91 over the reals at `k = 9`, `max_error = 0.1`,
`z = 0` is `ceil(45 * (79/81)^3) = 42`. -/
theorem kld_formula_exact_nine : kld_formula_exact 9 (1 / 10) 0 = 42 := by decide!

/-- C11 (end-to-end scenario, final value).  After
`init(0.5, 0.1, [w], 10)` on a table whose first entry is `>= 0` (with `0.1`
the rational `1/10` or the binary32 value `13421773/2^27`, and any bin width
`w`, `0.1` among them), feeding 10 one-dimensional samples whose 10 bins, as
line 130 computes them, are pairwise distinct succeeds, the support size ends
at 10, and the count returned by the 10th `update` is the ceiling formula at
`k = 9`, `ceil(9/(2*0.1) * (1 - 2/81 + sqrt(2/81)*0)^3)`, over the reals; its
value is 42. -/
theorem C11_scenario_final_value (s0 : kld_sampling) (t : ℚ) (rest : List ℚ) (ht : 0 ≤ t)
    (err w : ℚ) (herr : err = 1 / 10 ∨ err = 13421773 / 134217728)
    (xs : List (List ℚ)) (hlen : xs.length = 10) (hdim : ∀ x ∈ xs, x.length = 1)
    (hdist : (xs.map (fun x => curr_bin x [w])).Nodup) :
    ∃ rs s, feed (init s0 (t :: rest) (1 / 2) err [w] 10) xs = .ok (rs, s) ∧
      rs.length = 10 ∧ s.support_samples = 10 ∧ s.zvalue = 0 ∧
      rs[9]? = some (Int.ceil ((9 : ℝ) / (2 * (1 / 10))
        * (1 - 2 / 81 + Real.sqrt (2 / 81) * 0) ^ 3)) ∧
      rs[9]? = some 42 := by
  obtain ⟨rs, s, hrun⟩ := feed_total xs (init s0 (t :: rest) (1 / 2) err [w] 10)
    (by simp [init]) (fun x hx => by rw [hdim x hx]; rfl)
  obtain ⟨_, _, hzs, _, hrl, _⟩ := feed_frame xs _ rs s hrun
  have hz := init_scenario_zvalue s0 t rest ht err [w] 10
  obtain ⟨hsup, hkld⟩ := feed_init_closed s0 (t :: rest) (1 / 2) err [w] 10 xs rs s hrun
  obtain ⟨hnd, _, _, _, _, hcard, _⟩ :=
    feed_init_bins s0 (t :: rest) (1 / 2) err [w] 10 xs rs s hrun
  have hten : support_count (xs.map (fun x => curr_bin x [w])) = 10 := by
    have h1 := hcard.mp (hnd.mpr (hdist.filter _))
    rw [hsup, List.toFinset_card_of_nodup hdist, List.length_map, hlen] at h1
    exact_mod_cast h1
  rw [hten] at hsup hkld
  rw [hz] at hkld
  have hmax : max (10 : ℤ) 10 = 10 := max_self 10
  rw [hmax, ratchet_closed_scenario err herr] at hkld
  have hne : xs ≠ [] := by
    intro h0
    rw [h0] at hlen
    cases hlen
  have hlast := feed_getLast xs _ rs s hrun hne
  rw [List.getLast?_eq_getElem?, hrl, hlen, hkld] at hlast
  have hform : Int.ceil ((9 : ℝ) / (2 * (1 / 10))
      * (1 - 2 / 81 + Real.sqrt (2 / 81) * 0) ^ 3) = 42 := by
    have h := kld_formula_exact_eq 9 (by norm_num) (1 / 10) 0
    rw [kld_formula_exact_nine] at h
    unfold kld_formula at h
    rw [h]
    push_cast
    norm_num
  refine ⟨rs, s, hrun, by rw [hrl, hlen], by exact_mod_cast hsup, by rw [hzs, hz], ?_, hlast⟩
  rw [hform]
  exact hlast

theorem C11_scenario_final_value_witness :
    ∃ rs s, feed (init (fresh 0 0 0 0 0 0) ([0] ++ []) (1 / 2) (13421773 / 134217728)
        [13421773 / 134217728] 10)
        [[1 / 16], [3 / 16], [1 / 4], [3 / 8], [7 / 16], [9 / 16], [5 / 8], [3 / 4], [7 / 8],
          [15 / 16]] = .ok (rs, s) ∧
      rs.length = 10 ∧ s.support_samples = 10 ∧ s.zvalue = 0 ∧
      rs[9]? = some (Int.ceil ((9 : ℝ) / (2 * (1 / 10))
        * (1 - 2 / 81 + Real.sqrt (2 / 81) * 0) ^ 3)) ∧
      rs[9]? = some 42 :=
  C11_scenario_final_value (fresh 0 0 0 0 0 0) 0 [] (by norm_num) (13421773 / 134217728)
    (13421773 / 134217728) (Or.inr rfl)
    [[1 / 16], [3 / 16], [1 / 4], [3 / 8], [7 / 16], [9 / 16], [5 / 8], [3 / 4], [7 / 8],
      [15 / 16]] (by decide) (by decide) (by decide!)

/-- Over the reals the candidate of line 91 is non-decreasing in the z-value
when `max_error > 0` and `k >= 1`. -/
theorem kld_formula_mono_z (k : ℤ) (hk : 1 ≤ k) (e z1 z2 : ℝ) (he : 0 < e) (hz : z1 ≤ z2) :
    kld_formula k e z1 ≤ kld_formula k e z2 := by
  unfold kld_formula
  apply Int.ceil_mono
  have hkr : (0 : ℝ) < (k : ℝ) := by exact_mod_cast (by omega : (0 : ℤ) < k)
  have hA : (0 : ℝ) ≤ (k : ℝ) / (2 * e) := by positivity
  have hs : (0 : ℝ) ≤ Real.sqrt (2 / (9 * (k : ℝ))) := Real.sqrt_nonneg _
  have hbase : 1 - 2 / (9 * (k : ℝ)) + Real.sqrt (2 / (9 * (k : ℝ))) * z1
      ≤ 1 - 2 / (9 * (k : ℝ)) + Real.sqrt (2 / (9 * (k : ℝ))) * z2 := by
    have := mul_le_mul_of_nonneg_left hz hs
    linarith
  have hcube := (Odd.strictMono_pow (R := ℝ) (by decide : Odd 3)).monotone hbase
  exact mul_le_mul_of_nonneg_left hcube hA

/-- The stored count after a new bin, as a maximum. -/
theorem ratchet_eq_max (s : kld_sampling) :
    ratchet s = if 2 ≤ s.support_samples + 1 then
        max s.kld_samples (kld_candidate (s.support_samples + 1 - 1) s.max_error s.zvalue)
      else s.kld_samples := by
  unfold ratchet
  by_cases h2 : 2 ≤ s.support_samples + 1
  · by_cases h3 : s.kld_samples < kld_candidate (s.support_samples + 1 - 1) s.max_error s.zvalue
    · rw [if_pos ⟨h2, h3⟩, if_pos h2]
      exact (max_eq_right (le_of_lt h3)).symm
    · rw [if_neg (fun h => h3 h.2), if_pos h2]
      exact (max_eq_left (not_lt.mp h3)).symm
  · rw [if_neg (fun h => h2 h.1), if_neg h2]

/-- The candidate of line 91 at a smaller z-value is at most the candidate at a
larger one, when `max_error > 0` and the larger z-value does not take the
machine value out of the range of `int` where the smaller one keeps it in. -/
theorem kld_candidate_mono_z (k : ℤ) (e z1 z2 : ℚ) (he : 0 < e) (hz : z1 ≤ z2)
    (h2 : (kld_value k e z1).isSome = true → (kld_value k e z2).isSome = true) :
    kld_candidate k e z1 ≤ kld_candidate k e z2 := by
  unfold kld_candidate
  cases h1 : kld_value k e z1 with
  | none => exact kld_candidate_ge k e z2
  | some n1 =>
    obtain ⟨n2, hn2⟩ := Option.isSome_iff_exists.mp (h2 (by rw [h1]; rfl))
    rw [hn2]
    exact kld_value_mono_z k e z1 z2 n1 n2 he hz h1 hn2

theorem ratchet_dominated (s1 s2 : kld_sampling) (h : z_dominated s1 s2)
    (hr : 1 ≤ s1.support_samples →
      (kld_value s1.support_samples s1.max_error s1.zvalue).isSome = true →
      (kld_value s1.support_samples s1.max_error s2.zvalue).isSome = true) :
    ratchet s1 ≤ ratchet s2 := by
  obtain ⟨he, he2, _, _, hsup, _, hz, hk⟩ := h
  rw [ratchet_eq_max, ratchet_eq_max, ← hsup, ← he2]
  by_cases h2 : 2 ≤ s1.support_samples + 1
  · rw [if_pos h2, if_pos h2]
    have hk1 : s1.support_samples + 1 - 1 = s1.support_samples := by ring
    rw [hk1]
    exact max_le_max hk (kld_candidate_mono_z _ _ _ _ he hz (hr (by omega)))
  · rw [if_neg h2, if_neg h2]
    exact hk

/-- One `update` on two objects that differ in the z-value only: the same
fatal exit, or two counts in the same order and objects related as before. -/
theorem update_dominated (s1 s2 : kld_sampling) (x : List ℚ) (h : z_dominated s1 s2)
    (hr : ratchet s1 ≤ ratchet s2) :
    (∀ e, update s1 x = .error e → update s2 x = .error e) ∧
    (∀ r1 t1, update s1 x = .ok (r1, t1) →
      ∃ r2 t2, update s2 x = .ok (r2, t2) ∧ r1 ≤ r2 ∧ z_dominated t1 t2 ∧
        t1.support_samples ≤ s1.support_samples + 1 ∧
        s1.support_samples ≤ t1.support_samples) := by
  obtain ⟨he, he2, hb, hbins, hsup, hnum, hz, hk⟩ := h
  by_cases hne : s1.bin_size = []
  · have h1 : update s1 x = .error Fatal.must_run_init := by simp [update, hne]
    have h2 : update s2 x = .error Fatal.must_run_init := by simp [update, ← hb, hne]
    rw [h1, h2]
    exact ⟨fun e h => h, fun r1 t1 h => by cases h⟩
  · by_cases hlen : x.length = s1.bin_size.length
    · by_cases hmem : seen (curr_bin x s1.bin_size) s1.bins = true
      · rw [update_old_bin s1 x hne hlen hmem,
          update_old_bin s2 x (hb ▸ hne) (hb ▸ hlen) (hb ▸ hbins ▸ hmem)]
        refine ⟨fun e h => (by cases h), ?_⟩
        intro r1 t1 h1
        injection h1 with h1
        injection h1 with h1 h2
        subst h1 h2
        refine ⟨_, _, rfl, hk, ⟨he, he2, hb, hbins, hsup, ?_, hz, hk⟩, ?_, ?_⟩
        · show s1.num_samples + 1 = _
          rw [hnum]
        · show s1.support_samples ≤ s1.support_samples + 1
          omega
        · exact le_refl _
      · have hnew : seen (curr_bin x s1.bin_size) s1.bins = false := (Bool.not_eq_true _).mp hmem
        rw [update_new_bin s1 x hne hlen hnew,
          update_new_bin s2 x (hb ▸ hne) (hb ▸ hlen) (hb ▸ hbins ▸ hnew)]
        refine ⟨fun e h => (by cases h), ?_⟩
        intro r1 t1 h1
        injection h1 with h1
        injection h1 with h1 h2
        subst h1 h2
        refine ⟨_, _, rfl, hr, ⟨he, he2, hb, ?_, ?_, ?_, hz, hr⟩, ?_, ?_⟩
        · show s1.bins ++ [curr_bin x s1.bin_size] = s2.bins ++ [curr_bin x s2.bin_size]
          rw [hbins, hb]
        · show s1.support_samples + 1 = s2.support_samples + 1
          rw [hsup]
        · show s1.num_samples + 1 = s2.num_samples + 1
          rw [hnum]
        · exact le_refl _
        · show s1.support_samples ≤ s1.support_samples + 1
          omega
    · have h1 : update s1 x = .error Fatal.dimension_mismatch := by
        simp [update, hne, hlen]
      have h2 : update s2 x = .error Fatal.dimension_mismatch := by
        simp [update, ← hb, hne, hlen]
      rw [h1, h2]
      exact ⟨fun e h => h, fun r1 t1 h => by cases h⟩

/-- Runs on two objects that differ in the z-value only, when at every support
size met the larger z-value keeps the value of line 91 in the range of `int`
where the smaller one does. -/
theorem feed_dominated (xs : List (List ℚ)) : ∀ s1 s2 : kld_sampling, z_dominated s1 s2 →
    (∀ k : ℤ, 1 ≤ k → s1.support_samples ≤ k → k < s1.support_samples + xs.length →
      (kld_value k s1.max_error s1.zvalue).isSome = true →
      (kld_value k s1.max_error s2.zvalue).isSome = true) →
    (∀ e, feed s1 xs = .error e → feed s2 xs = .error e) ∧
    (∀ rs1 t1, feed s1 xs = .ok (rs1, t1) →
      ∃ rs2 t2, feed s2 xs = .ok (rs2, t2) ∧ List.Forall₂ (fun a b => a ≤ b) rs1 rs2) := by
  induction xs with
  | nil =>
    intro s1 s2 _ _
    refine ⟨fun e h => (by cases h), ?_⟩
    intro rs1 t1 h
    simp only [feed] at h
    injection h with h
    injection h with h1 _
    subst h1
    exact ⟨[], s2, rfl, List.Forall₂.nil⟩
  | cons x xs ih =>
    intro s1 s2 hd hrange
    have hr : ratchet s1 ≤ ratchet s2 :=
      ratchet_dominated s1 s2 hd (fun h1 => hrange s1.support_samples h1 (le_refl _)
        (by simp only [List.length_cons]; push_cast; omega))
    obtain ⟨herr, hok⟩ := update_dominated s1 s2 x hd hr
    cases hu : update s1 x with
    | error e =>
      have h2 := herr e hu
      simp only [feed, hu, h2]
      exact ⟨fun e h => h, fun rs1 t1 h => by cases h⟩
    | ok p =>
      obtain ⟨r1, u1⟩ := p
      obtain ⟨r2, u2, hu2, hle, hd2, hs1, hs2⟩ := hok r1 u1 hu
      obtain ⟨_, _, _, he1, hz1, _⟩ := update_frame s1 x r1 u1 hu
      obtain ⟨_, _, _, _, hz2, _⟩ := update_frame s2 x r2 u2 hu2
      obtain ⟨ierr, iok⟩ := ih u1 u2 hd2 (by
        intro k hk1 hk2 hk3
        rw [he1, hz1, hz2]
        apply hrange k hk1 (by omega)
        simp only [List.length_cons]
        push_cast
        omega)
      simp only [feed, hu, hu2]
      cases hf : feed u1 xs with
      | error e =>
        rw [ierr e hf]
        exact ⟨fun e h => h, fun rs1 t1 h => by cases h⟩
      | ok q =>
        obtain ⟨rs1, t1⟩ := q
        obtain ⟨rs2, t2, hf2, hall⟩ := iok rs1 t1 hf
        rw [hf2]
        refine ⟨fun e h => (by cases h), ?_⟩
        intro rs1' t1' h
        injection h with h
        injection h with h1 _
        subst h1
        exact ⟨r2 :: rs2, t2, rfl, List.Forall₂.cons hle hall⟩

/-- The fatal exits of a run depend on the bin widths and the samples only. -/
theorem feed_error_bin_size (ys : List (List ℚ)) : ∀ (a1 a2 : kld_sampling),
    a1.bin_size = a2.bin_size → ∀ e, feed a1 ys = .error e → feed a2 ys = .error e := by
  induction ys with
  | nil => intro a1 a2 _ e h; cases h
  | cons y ys ih =>
    intro a1 a2 hb e h
    by_cases hne : a1.bin_size = []
    · have h1 : update a1 y = .error Fatal.must_run_init := by simp [update, hne]
      have h2 : update a2 y = .error Fatal.must_run_init := by
        simp [update, ← hb, hne]
      simp only [feed, h1] at h
      simp only [feed, h2]
      exact h
    · by_cases hlen : y.length = a1.bin_size.length
      · obtain ⟨r1, u1, hu1⟩ := update_total a1 y hne hlen
        obtain ⟨r2, u2, hu2⟩ := update_total a2 y (hb ▸ hne) (hb ▸ hlen)
        have hb1 := (update_frame a1 y r1 u1 hu1).2.2.1
        have hb2 := (update_frame a2 y r2 u2 hu2).2.2.1
        simp only [feed, hu1] at h
        simp only [feed, hu2]
        cases hf1 : feed u1 ys with
        | error e1 =>
          rw [hf1] at h
          rw [ih u1 u2 (by rw [hb1, hb2, hb]) e1 hf1]
          exact h
        | ok q =>
          rw [hf1] at h
          cases h
      · have h1 : update a1 y = .error Fatal.dimension_mismatch := by
          simp [update, hne, hlen]
        have h2 : update a2 y = .error Fatal.dimension_mismatch := by
          simp [update, ← hb, hne, hlen]
        simp only [feed, h1] at h
        simp only [feed, h2]
        exact h

/-- C16, counterexample.  `max_error = 2^-28`, bin width 1, samples 0 and 1.
After `init(0.5, 2^-28, [1], 10)` on the table `[0]` the z-value is 0 and the
second `update` returns 63150454; on the empty table the z-value is the
fallback 4.1 and the second `update` returns 10, a smaller count: the
expression of line 91 at `k = 1` is then above `2^31 - 1` (also over the
reals), outside the range of `int`, the conversion delivers `-2^31`, and that
is not stored. -/
theorem C16_counterexample :
    feed (init (fresh 0 0 0 0 0 0) [0] (1 / 2) (1 / 268435456) [1] 10) [[0], [1]]
      = .ok ([10, 63150454],
          { confidence := 0, max_error := 1 / 268435456, bin_size := [1], num_samples := 2,
            bins := [[KeyVal.fin 0], [KeyVal.fin 1]], curr_sample := [1],
            support_samples := 2, kld_samples := 63150454, zvalue := 0 }) ∧
    feed (init (fresh 0 0 0 0 0 0) [] (1 / 2) (1 / 268435456) [1] 10) [[0], [1]]
      = .ok ([10, 10],
          { confidence := 0, max_error := 1 / 268435456, bin_size := [1], num_samples := 2,
            bins := [[KeyVal.fin 0], [KeyVal.fin 1]], curr_sample := [1],
            support_samples := 2, kld_samples := 10, zvalue := 41 / 10 }) ∧
    kld_value 1 (1 / 268435456) (41 / 10) = none ∧
    kld_candidate 1 (1 / 268435456) (41 / 10) = -2147483648 ∧
    2147483647 < kld_formula 1 (1 / 268435456) (41 / 10) := by
  refine ⟨by decide!, by decide!, by decide!, by decide!, ?_⟩
  unfold kld_formula
  rw [Int.lt_ceil]
  have hs : (47 / 100 : ℝ) ≤ Real.sqrt (2 / (9 * ((1 : ℤ) : ℝ))) := by
    apply Real.le_sqrt_of_sq_le
    norm_num
  have hx : (27 / 10 : ℝ) ≤ 1 - 2 / (9 * ((1 : ℤ) : ℝ))
      + Real.sqrt (2 / (9 * ((1 : ℤ) : ℝ))) * (41 / 10) := by
    have : (47 / 100 : ℝ) * (41 / 10) ≤ Real.sqrt (2 / (9 * ((1 : ℤ) : ℝ))) * (41 / 10) :=
      mul_le_mul_of_nonneg_right hs (by norm_num)
    norm_num at this ⊢
    linarith
  have hc : (27 / 10 : ℝ) ^ 3 ≤ (1 - 2 / (9 * ((1 : ℤ) : ℝ))
      + Real.sqrt (2 / (9 * ((1 : ℤ) : ℝ))) * (41 / 10)) ^ 3 :=
    pow_le_pow_left₀ (by norm_num) hx 3
  have hm : ((1 : ℤ) : ℝ) / (2 * (1 / 268435456)) * (27 / 10 : ℝ) ^ 3
      ≤ ((1 : ℤ) : ℝ) / (2 * (1 / 268435456)) * (1 - 2 / (9 * ((1 : ℤ) : ℝ))
        + Real.sqrt (2 / (9 * ((1 : ℤ) : ℝ))) * (41 / 10)) ^ 3 :=
    mul_le_mul_of_nonneg_left hc (by norm_num)
  refine lt_of_lt_of_le ?_ hm
  norm_num

/-- C16, amended.  Over the reals, for `max_error > 0`, `k >= 1` and
`z1 <= z2` the candidate
`ceil(k/(2*max_error) * (1 - 2/(9k) + sqrt(2/(9k))*z)^3)` at `z1` is at most the
one at `z2`, in particular at most the one at the fallback 4.1 when
`z1 <= 4.1`.  The `int` that line 91 computes is ordered in the same way
whenever the value at `z2` is in the range of `int` or the value at `z1` is
not.  Hence, of two objects that differ in the z-value only and are fed the
same samples, the one with the larger z-value takes the same fatal exits, and
it returns at every `update` a count at least as large provided that, at
every support size `k` met, the larger z-value keeps the value of line 91 in
the range of `int` where the smaller one does. -/
theorem C16_larger_z_is_safe (s : kld_sampling) (z2 : ℚ) (xs : List (List ℚ))
    (he : 0 < s.max_error) (hz : s.zvalue ≤ z2) :
    (∀ (k : ℤ) (e y1 y2 : ℝ), 1 ≤ k → 0 < e → y1 ≤ y2 →
      kld_formula k e y1 ≤ kld_formula k e y2) ∧
    (∀ (k : ℤ) (e y : ℝ), 1 ≤ k → 0 < e → y ≤ 41 / 10 →
      kld_formula k e y ≤ kld_formula k e (41 / 10)) ∧
    (∀ (k : ℤ) (e y1 y2 : ℚ), 0 < e → y1 ≤ y2 →
      ((kld_value k e y1).isSome = true → (kld_value k e y2).isSome = true) →
      kld_candidate k e y1 ≤ kld_candidate k e y2) ∧
    (∀ e, feed s xs = .error e → feed { s with zvalue := z2 } xs = .error e) ∧
    ((∀ k : ℤ, 1 ≤ k → s.support_samples ≤ k → k < s.support_samples + xs.length →
        (kld_value k s.max_error s.zvalue).isSome = true →
        (kld_value k s.max_error z2).isSome = true) →
      ∀ rs1 t1, feed s xs = .ok (rs1, t1) →
        ∃ rs2 t2, feed { s with zvalue := z2 } xs = .ok (rs2, t2) ∧
          rs1.length = rs2.length ∧ List.Forall₂ (fun a b => a ≤ b) rs1 rs2) := by
  have hd : z_dominated s { s with zvalue := z2 } :=
    ⟨he, rfl, rfl, rfl, rfl, rfl, hz, le_refl _⟩
  refine ⟨fun k e y1 y2 hk he hy => kld_formula_mono_z k hk e y1 y2 he hy,
    fun k e y hk he hy => kld_formula_mono_z k hk e y _ he hy,
    fun k e y1 y2 he hy h => kld_candidate_mono_z k e y1 y2 he hy h, ?_, ?_⟩
  · exact feed_error_bin_size xs s { s with zvalue := z2 } rfl
  · intro hrange rs1 t1 h1
    obtain ⟨_, hok⟩ := feed_dominated xs s _ hd hrange
    obtain ⟨rs2, t2, h2, hall⟩ := hok rs1 t1 h1
    exact ⟨rs2, t2, h2, hall.length_eq, hall⟩

theorem C16_larger_z_is_safe_witness :
    ∃ rs2 t2, feed { three_bins with zvalue := 41 / 10 } [[35 / 100]] = .ok (rs2, t2) ∧
      [(12 : ℤ)].length = rs2.length ∧ List.Forall₂ (fun a b => a ≤ b) [12] rs2 :=
  (C16_larger_z_is_safe three_bins (41 / 10) [[35 / 100]] (by decide!) (by decide!)).2.2.2.2
    (fun k h1 h2 h3 _ => by
      have hk : k = 3 := by
        have h4 : k < 3 + 1 := h3
        have h5 : (3 : ℤ) ≤ k := h2
        omega
      subst hk
      decide!)
    [12] four_bins (by decide!)

end KLD
